import Mathlib

/-!
Shallow embedding of the ledger core of the zzp repository (grootboek
parser, money, account paths, calendar types and the aggregation tool),
together with theorems settling the specification claims.

Rust strings are modelled as `List Char`; byte-level behaviour that the
claims depend on (UTF-8 slicing) is modelled through the UTF-8 encoded
length of a character.  Machine integers are modelled as `Int` with
explicit two-complement wrapping where the code can overflow in release
builds.  Fallible Rust functions return `Option` or `Except`; functions
that can panic return a dedicated result type with a panic case.
-/

set_option maxHeartbeats 1000000

namespace Zzp

/-- A string borrowed from the input, modelled as its character list. -/
abbrev RStr := List Char

/-- Result of a Rust computation that may panic (`.panic`), fail with an
error (`.err`) or succeed (`.ok`). -/
inductive PResult (ε : Type) (α : Type) where
  | panic : PResult ε α
  | err : ε → PResult ε α
  | ok : α → PResult ε α
  deriving DecidableEq, Repr

/-- The Unicode White_Space property, as used by the Rust functions
`char::is_whitespace` and `str::trim`. -/
def rustIsWhitespace (c : Char) : Bool :=
  c.toNat = 0x20 ∨ (0x9 ≤ c.toNat ∧ c.toNat ≤ 0xD) ∨
  c.toNat = 0x85 ∨ c.toNat = 0xA0 ∨ c.toNat = 0x1680 ∨
  (0x2000 ≤ c.toNat ∧ c.toNat ≤ 0x200A) ∨
  c.toNat = 0x2028 ∨ c.toNat = 0x2029 ∨ c.toNat = 0x202F ∨
  c.toNat = 0x205F ∨ c.toNat = 0x3000

/-- Model of `str::trim`: drop Unicode whitespace from both ends. -/
def rustTrim (s : RStr) : RStr :=
  ((s.dropWhile rustIsWhitespace).reverse.dropWhile rustIsWhitespace).reverse

/-- The number of bytes of the UTF-8 encoding of a character; used to model
byte slicing of Rust strings. -/
def utf8Len (c : Char) : Nat :=
  if c.toNat < 0x80 then 1
  else if c.toNat < 0x800 then 2
  else if c.toNat < 0x10000 then 3
  else 4

/-- Split at the first occurrence of a separator; models
`splitn(2, sep)` of the source (its helper named partition). -/
def splitOnce (sep : Char) : RStr → Option (RStr × RStr)
  | [] => none
  | c :: rest =>
    if c = sep then some ([], rest)
    else (splitOnce sep rest).map (fun p => (c :: p.1, p.2))

/-- Model of `str::splitn(n, sep)`. -/
def rustSplitn (n : Nat) (sep : Char) (s : RStr) : List RStr :=
  match n with
  | 0 => []
  | 1 => [s]
  | n + 2 =>
    match splitOnce sep s with
    | none => [s]
    | some (a, b) => a :: rustSplitn (n + 1) sep b

/-- Split at every occurrence of a separator (for `str::lines`). -/
def splitAll (sep : Char) : RStr → List RStr
  | [] => [[]]
  | c :: rest =>
    if c = sep then [] :: splitAll sep rest
    else match splitAll sep rest with
      | [] => [[c]]
      | a :: more => (c :: a) :: more

/-- Strip one trailing carriage return, as `str::lines` does per line. -/
def stripCr (s : RStr) : RStr :=
  match s.getLast? with
  | some c => if c = '\r' then s.dropLast else s
  | none => s

/-- Model of `str::lines`: split on newlines, without a final empty line
for input ending in a newline, stripping a trailing carriage return. -/
def rustLines (s : RStr) : List RStr :=
  let pieces := splitAll '\n' s
  let pieces := match pieces.getLast? with
    | some [] => pieces.dropLast
    | _ => pieces
  pieces.map stripCr

/-! ### Decimal digit strings -/

/-- Decimal digits of a natural number, most significant first, driven by
explicit fuel so that the definition is structurally recursive. -/
def natDigitsAux : Nat → Nat → RStr
  | 0, _ => []
  | fuel + 1, n =>
    if n = 0 then []
    else natDigitsAux fuel (n / 10) ++ [Char.ofNat (48 + n % 10)]

/-- Decimal rendering of a natural number (`"0"` for zero). -/
def natDigits (n : Nat) : RStr :=
  if n = 0 then ['0'] else natDigitsAux (n + 1) n

/-- Numeric value of a digit string accumulated from `a`. -/
def digitsVal (a : Nat) (s : RStr) : Nat :=
  s.foldl (fun acc c => acc * 10 + (c.toNat - 48)) a

/-- Parse a non-empty all-digit string into its value; models the digit
loop of the integer `FromStr` implementations of Rust. -/
def parseDigits (s : RStr) : Option Nat :=
  if s = [] then none
  else if s.all Char.isDigit then some (digitsVal 0 s)
  else none

/-- Model of `FromStr` for Rust unsigned integer types with maximum value
`hi`: an optional `+` sign, then one or more digits, value at most `hi`. -/
def rustParseUnsigned (hi : Nat) (s : RStr) : Option Nat :=
  let body := match s with
    | c :: rest => if c = '+' then parseDigits rest else parseDigits s
    | [] => parseDigits s
  match body with
  | some v => if v ≤ hi then some v else none
  | none => none

/-- Model of `FromStr` for Rust signed integer types with range
`[lo, hi]`: an optional `+` or `-` sign, then one or more digits. -/
def rustParseSigned (lo hi : Int) (s : RStr) : Option Int :=
  let body : Option Int := match s with
    | c :: rest =>
      if c = '+' then (parseDigits rest).map (Int.ofNat)
      else if c = '-' then (parseDigits rest).map (fun n : Nat => -(n : Int))
      else (parseDigits s).map (Int.ofNat)
    | [] => (parseDigits s).map (Int.ofNat)
  match body with
  | some v => if lo ≤ v ∧ v ≤ hi then some v else none
  | none => none

/-- `i32` parsing. -/
def parseI32 (s : RStr) : Option Int := rustParseSigned (-2147483648) 2147483647 s

/-- `i16` parsing. -/
def parseI16 (s : RStr) : Option Int := rustParseSigned (-32768) 32767 s

/-- `u8` parsing. -/
def parseU8 (s : RStr) : Option Nat := rustParseUnsigned 255 s

/-- Zero padding on the left up to a field width, as in `{:02}`/`{:04}`
format specifiers applied to non-negative numbers. -/
def padZeros (width : Nat) (s : RStr) : RStr :=
  List.replicate (width - s.length) '0' ++ s

/-- Two-complement wrap into `[-2^31, 2^31)`, the release-mode overflow
behaviour of `i32` arithmetic. -/
def wrap32 (v : Int) : Int := (v + 2147483648) % 4294967296 - 2147483648

/-- Two-complement wrap into `[-2^15, 2^15)`, the release-mode overflow
behaviour of `i16` arithmetic. -/
def wrap16 (v : Int) : Int := (v + 32768) % 65536 - 32768

/-! ### The ledger calendar: `src/grootboek/date.rs`

Namespace `GB` embeds the grootboek module.  All three date fields are
`i32` in the source and become `Int` here; the only arithmetic performed
on the year is the increment in `first_day_next_year`, which wraps in a
release build. -/

namespace GB

/-- Ledger date record of `src/grootboek/date.rs`. -/
structure Date where
  year : Int
  month : Int
  day : Int
  deriving DecidableEq, Repr

/-- The free function `is_leap_year`.  Rust remainder truncates toward
zero while `Int.emod` is Euclidean, but both agree on comparisons with
zero, which is all this function does. -/
def is_leap_year (year : Int) : Bool :=
  if year % 400 = 0 then true
  else if year % 100 = 0 then false
  else year % 4 = 0

/-- The free function `days_in_month`; `none` models the panicking
fallback arm for a month outside `1..=12`. -/
def days_in_month (month : Int) (leap_year : Bool) : Option Int :=
  if month = 1 then some 31
  else if month = 2 ∧ ¬leap_year then some 28
  else if month = 2 ∧ leap_year then some 29
  else if month = 3 then some 31
  else if month = 4 then some 30
  else if month = 5 then some 31
  else if month = 6 then some 30
  else if month = 7 then some 31
  else if month = 8 then some 31
  else if month = 9 then some 30
  else if month = 10 then some 31
  else if month = 11 then some 30
  else if month = 12 then some 31
  else none

namespace Date

/-- `Date::from_parts`: validate month and day ranges.  The outer `Option`
is the panic layer of `days_in_month`; the month range check runs first,
so the panic arm is in fact unreachable here. -/
def from_parts (year month day : Int) : Option (Except Unit Date) :=
  if month < 1 ∨ month > 12 then some (.error ())
  else (days_in_month month (is_leap_year year)).map fun dim =>
    if day < 1 ∨ day > dim then .error ()
    else .ok { year := year, month := month, day := day }

/-- `Date::parse_from_str`: split on `-` into at most three components,
parse each as `i32` and delegate to `from_parts`; any missing or
unparseable component is an error (`splitn(3, ..)` yields at most three
pieces, so the catch-all covers exactly the failing component reads). -/
def parse_from_str (data : Zzp.RStr) : Option (Except Unit Date) :=
  match (rustSplitn 3 '-' data).map parseI32 with
  | [some year, some month, some day] => from_parts year month day
  | _ => some (.error ())

/-- `Date::is_leap_year`. -/
def isLeapYear (d : Date) : Bool := is_leap_year d.year

/-- `Date::last_day_of_month`; `none` models the panic of
`days_in_month` on an invalid month field. -/
def last_day_of_month (d : Date) : Option Date :=
  (days_in_month d.month d.isLeapYear).map fun dim =>
    { year := d.year, month := d.month, day := dim }

/-- `Date::last_day_of_year`. -/
def last_day_of_year (d : Date) : Date :=
  { year := d.year, month := 12, day := 31 }

/-- `Date::first_day_next_year`; the year increment wraps like release
mode `i32` addition. -/
def first_day_next_year (d : Date) : Date :=
  { year := wrap32 (d.year + 1), month := 1, day := 1 }

/-- `Date::first_day_next_month`. -/
def first_day_next_month (d : Date) : Date :=
  if d.month = 12 then d.first_day_next_year
  else { year := d.year, month := d.month + 1, day := 1 }

/-- `Date::next_day`; `none` models the panic of `days_in_month` on an
invalid month field. -/
def next_day (d : Date) : Option Date :=
  (days_in_month d.month d.isLeapYear).map fun dim =>
    if d.day = dim then d.first_day_next_month
    else { year := d.year, month := d.month, day := d.day + 1 }

/-- The validity invariant claimed for ledger dates: month in `[1, 12]`
and day in `[1, days_in_month]` (for a month in range, `days_in_month`
is always `some`, so `getD 0` reads the actual day count). -/
def Valid (d : Date) : Prop :=
  1 ≤ d.month ∧ d.month ≤ 12 ∧ 1 ≤ d.day ∧
  d.day ≤ (days_in_month d.month d.isLeapYear).getD 0

instance (d : Date) : Decidable d.Valid := by
  unfold Valid
  infer_instance

end Date

/-- The panel of date operations of the claim: one constructor-free step
of the ledger calendar. -/
inductive Op where
  | nextDay
  | firstDayNextMonth
  | firstDayNextYear
  | lastDayOfMonth
  | lastDayOfYear
  deriving DecidableEq, Repr

/-- Apply one calendar operation; `none` models a panic. -/
def applyOp (op : Op) (d : Date) : Option Date :=
  match op with
  | .nextDay => d.next_day
  | .firstDayNextMonth => some d.first_day_next_month
  | .firstDayNextYear => some d.first_day_next_year
  | .lastDayOfMonth => d.last_day_of_month
  | .lastDayOfYear => some d.last_day_of_year

/-- Apply a finite sequence of calendar operations. -/
def applyOps (ops : List Op) (d : Date) : Option Date :=
  match ops with
  | [] => some d
  | op :: rest =>
    match applyOp op d with
    | none => none
    | some d2 => applyOps rest d2

end GB

/-! ### Money and accounts: `src/grootboek/types.rs` -/

/-- `Cents`: a signed count of minor currency units (`i32` in the
source). -/
structure Cents where
  val : Int
  deriving DecidableEq, Repr

/-- `Account`: an opaque borrowed path string. -/
structure Account where
  raw : RStr
  deriving DecidableEq, Repr

/-- `Account::from_raw`. -/
def Account.from_raw (raw : RStr) : Account := { raw := raw }

/-- The characters of `raw` strictly before its last `/`:
`raw[..rfind('/')]` in `Account::parent`.  `none` when there is no
slash. -/
def beforeLastSlash : RStr → Option RStr
  | [] => none
  | c :: rest =>
    match beforeLastSlash rest with
    | some p => some (c :: p)
    | none => if c = '/' then some [] else none

/-- `Account::parent`: the account with the last path segment removed. -/
def Account.parent (a : Account) : Option Account :=
  (beforeLastSlash a.raw).map Account.from_raw

/-- Chain of strict ancestors produced by the `AccountParents` iterator:
the parent, its parent and so on, deepest first.  Driven by fuel so that
the definition is structurally recursive; `a.raw.length` is enough fuel
because each parent is strictly shorter. -/
def parentChainAux : Nat → Account → List Account
  | 0, _ => []
  | fuel + 1, a =>
    match a.parent with
    | none => []
    | some p => p :: parentChainAux fuel p

/-- `Account::parents` collected into a list. -/
def Account.parentChain (a : Account) : List Account :=
  parentChainAux a.raw.length a

/-- `Account::common_parent`: zip the two parent chains, keep the equal
prefix, and take its last element. -/
def Account.common_parent (a b : Account) : Option Account :=
  ((((a.parentChain).zip b.parentChain).takeWhile
    (fun p => p.1 = p.2)).getLast?).map Prod.fst

/-- The prefixes of `raw` that end just before each `/` occurrence, in
text order; accumulates the scanned prefix in `pre`. -/
def slashPrefixesAux (pre : RStr) : RStr → List RStr
  | [] => []
  | c :: rest =>
    if c = '/' then pre :: slashPrefixesAux (pre ++ [c]) rest
    else slashPrefixesAux (pre ++ [c]) rest

/-- `Account::walk_nodes`: every node prefix from the top-level segment
down to the account itself. -/
def Account.walk_nodes (a : Account) : List Account :=
  (slashPrefixesAux [] a.raw).map Account.from_raw ++ [a]

/-- `Mutation`: a signed money amount against one account. -/
structure Mutation where
  amount : Cents
  account : Account
  deriving DecidableEq, Repr

/-- `Tag`: a label and a free-form value. -/
structure Tag where
  label : RStr
  value : RStr
  deriving DecidableEq, Repr

/-- `Transaction`: date, description, tags and mutations. -/
structure Transaction where
  date : GB.Date
  description : RStr
  tags : List Tag
  mutations : List Mutation
  deriving DecidableEq, Repr

/-- Rendering of `Cents` by its `Display` implementation:
`write!("{:+}.{:02}", amount / 100, (amount % 100).abs())` with the
truncating division and remainder of `i32`. -/
def Cents.display (c : Cents) : RStr :=
  let whole := Int.tdiv c.val 100
  let cents := (Int.tmod c.val 100).natAbs
  (if whole < 0 then '-' :: natDigits whole.natAbs else '+' :: natDigits whole.natAbs)
    ++ '.' :: padZeros 2 (natDigits cents)

/-! ### The ledger parser: `src/grootboek/parse.rs` -/

/-- Parse error details, flattened over the three detail enums of the
source. -/
inductive ErrDetails where
  | MissingDescription
  | InvalidDate
  | InvalidLabel
  | TagAfterMutation
  | MissingSign
  | MissingAccount
  | InvalidAmount
  deriving DecidableEq, Repr

/-- A parse error: detail kind plus the offending token. -/
structure ParseError where
  details : ErrDetails
  token : RStr
  deriving DecidableEq, Repr

/-- `Cents::parse_from_str`: `WHOLE` or `WHOLE.DD` where both fields go
through `i32::from_str` and `DD` has length exactly two; the combination
`whole * 100 + decimals` wraps like release-mode `i32` arithmetic. -/
def Cents.parse_from_str (data : RStr) : Option Cents :=
  match splitOnce '.' data with
  | some (whole, decimals) =>
    if decimals.length ≠ 2 then none
    else match parseI32 whole, parseI32 decimals with
      | some w, some d => some { val := wrap32 (w * 100 + d) }
      | _, _ => none
  | none =>
    match parseI32 data with
    | some w => some { val := wrap32 (w * 100) }
    | none => none

/-- `Mutation::parse_from_str`.  The sign test slices the first byte of
the amount token (`&amount[0..1]`), which panics when the token starts
with a multi-byte character; `.panic` models that. -/
def Mutation.parse_from_str (data : RStr) : PResult ParseError Mutation :=
  let data := rustTrim data
  match splitOnce ' ' data with
  | none => .err ⟨.MissingAccount, data⟩
  | some (amountRaw, accountRaw) =>
    let amount := rustTrim amountRaw
    let account := rustTrim accountRaw
    match amount with
    | [] => .panic
    | c :: rest =>
      if utf8Len c ≠ 1 then .panic
      else if c = '-' then
        match Cents.parse_from_str rest with
        | none => .err ⟨.InvalidAmount, amount⟩
        | some cents => .ok ⟨⟨wrap32 (cents.val * (-1))⟩, Account.from_raw account⟩
      else if c = '+' then
        match Cents.parse_from_str rest with
        | none => .err ⟨.InvalidAmount, amount⟩
        | some cents => .ok ⟨⟨wrap32 (cents.val * 1)⟩, Account.from_raw account⟩
      else .err ⟨.MissingSign, amount⟩

/-- `Tag::parse_from_str`: `none` when the line has no `:`, otherwise a
tag or an `InvalidLabel` error when the label has a character outside
ASCII alphanumerics and `-`. -/
def Tag.parse_from_str (data : RStr) : Option (Except ParseError Tag) :=
  let data := rustTrim data
  match splitOnce ':' data with
  | none => none
  | some (labelRaw, valueRaw) =>
    let label := rustTrim labelRaw
    let value := rustTrim valueRaw
    if label.any (fun c => ¬c.isAlphanum ∧ c ≠ '-') then
      some (.error ⟨.InvalidLabel, label⟩)
    else
      some (.ok ⟨label, value⟩)

/-- The tag and mutation loop of `Transaction::parse_from_lines`:
consume body lines until a blank line or the end of input, returning the
collected tags and mutations together with the unconsumed lines. -/
def parseBody (tags : List Tag) (mutations : List Mutation) :
    List RStr → PResult ParseError ((List Tag × List Mutation) × List RStr)
  | [] => .ok ((tags, mutations), [])
  | line :: rest =>
    let line := rustTrim line
    if line = [] then .ok ((tags, mutations), rest)
    else if line.head? = some '#' then parseBody tags mutations rest
    else match Tag.parse_from_str line with
      | some tag =>
        if mutations = [] then
          match tag with
          | .ok t => parseBody (tags ++ [t]) mutations rest
          | .error e => .err e
        else .err ⟨.TagAfterMutation, line⟩
      | none =>
        match Mutation.parse_from_str line with
        | .panic => .panic
        | .err e => .err e
        | .ok m => parseBody tags (mutations ++ [m]) rest

/-- Skip blank and comment lines up to the next transaction header. -/
def skipToHeader : List RStr → Option (RStr × List RStr)
  | [] => none
  | line :: rest =>
    let line := rustTrim line
    if line.head? = some '#' ∨ line = [] then skipToHeader rest
    else some (line, rest)

/-- `Transaction::parse_from_lines`: parse one transaction block from the
remaining lines (`.ok none` at the end of input), returning the
unconsumed lines alongside. -/
def Transaction.parse_from_lines (lines : List RStr) :
    PResult ParseError (Option (Transaction × List RStr)) :=
  match skipToHeader lines with
  | none => .ok none
  | some (header, rest) =>
    match splitOnce ':' header with
    | none => .err ⟨.MissingDescription, header⟩
    | some (dateRaw, descriptionRaw) =>
      let date := rustTrim dateRaw
      let description := rustTrim descriptionRaw
      if description = [] then .err ⟨.MissingDescription, header⟩
      else match GB.Date.parse_from_str date with
        | none => .panic
        | some (.error _) => .err ⟨.InvalidDate, date⟩
        | some (.ok parsedDate) =>
          match parseBody [] [] rest with
          | .panic => .panic
          | .err e => .err e
          | .ok ((tags, mutations), remaining) =>
            .ok (some (⟨parsedDate, description, tags, mutations⟩, remaining))

/-- The whole-file loop of `Transaction::parse_from_str`, with fuel
bounding the number of blocks (each block consumes at least one line, so
`lines.length + 1` is always enough). -/
def parseAllAux (fuel : Nat) (lines : List RStr) (acc : List Transaction) :
    PResult ParseError (List Transaction) :=
  match fuel with
  | 0 => .panic
  | fuel + 1 =>
    match Transaction.parse_from_lines lines with
    | .panic => .panic
    | .err e => .err e
    | .ok none => .ok acc
    | .ok (some (t, rest)) => parseAllAux fuel rest (acc ++ [t])

/-- `Transaction::parse_from_str`: split the input into lines and parse
transaction blocks until the input is exhausted. -/
def Transaction.parse_from_str (data : RStr) : PResult ParseError (List Transaction) :=
  let lines := rustLines data
  parseAllAux (lines.length + 1) lines []

/-! ### The validated Gregorian calendar: `src/date.rs`

Namespace `Greg`.  The year is an `i16` in the source; its `next`/`prev`
increments wrap like release-mode `i16` arithmetic.  Days are `u8`. -/

namespace Greg

/-- `Year`: a wrapper around an `i16` ordinal. -/
structure Year where
  year : Int
  deriving DecidableEq, Repr

/-- `Year::new`. -/
def Year.new (y : Int) : Year := { year := y }

/-- `Year::has_leap_day`; the remainder comparisons with zero agree
between the truncating Rust `%` and `Int.emod`. -/
def Year.has_leap_day (y : Year) : Bool :=
  y.year % 4 = 0 ∧ (y.year % 100 ≠ 0 ∨ y.year % 400 = 0)

/-- `Year::next`, with release-mode `i16` wrapping. -/
def Year.next (y : Year) : Year := { year := wrap16 (y.year + 1) }

/-- `Year::prev`, with release-mode `i16` wrapping. -/
def Year.prev (y : Year) : Year := { year := wrap16 (y.year - 1) }

/-- The `Month` enumeration. -/
inductive Month where
  | January | Februari | March | April | May | June
  | July | August | September | October | November | December
  deriving DecidableEq, Repr

/-- `Month::as_number`: the `u8` discriminant, 1 through 12. -/
def Month.as_number : Month → Nat
  | .January => 1
  | .Februari => 2
  | .March => 3
  | .April => 4
  | .May => 5
  | .June => 6
  | .July => 7
  | .August => 8
  | .September => 9
  | .October => 10
  | .November => 11
  | .December => 12

/-- `Month::new`: the only constructor from a number, 1 through 12. -/
def Month.new (n : Nat) : Option Month :=
  if n = 1 then some .January
  else if n = 2 then some .Februari
  else if n = 3 then some .March
  else if n = 4 then some .April
  else if n = 5 then some .May
  else if n = 6 then some .June
  else if n = 7 then some .July
  else if n = 8 then some .August
  else if n = 9 then some .September
  else if n = 10 then some .October
  else if n = 11 then some .November
  else if n = 12 then some .December
  else none

/-- `Month::wrapping_next`. -/
def Month.wrapping_next : Month → Month
  | .January => .Februari
  | .Februari => .March
  | .March => .April
  | .April => .May
  | .May => .June
  | .June => .July
  | .July => .August
  | .August => .September
  | .September => .October
  | .October => .November
  | .November => .December
  | .December => .January

/-- `Month::wrapping_prev`. -/
def Month.wrapping_prev : Month → Month
  | .January => .December
  | .Februari => .January
  | .March => .Februari
  | .April => .March
  | .May => .April
  | .June => .May
  | .July => .June
  | .August => .July
  | .September => .August
  | .October => .September
  | .November => .October
  | .December => .November

/-- `YearMonth`. -/
structure YearMonth where
  year : Year
  month : Month
  deriving DecidableEq, Repr

/-- `YearMonth::new`. -/
def YearMonth.new (y : Year) (m : Month) : YearMonth := { year := y, month := m }

/-- `YearMonth::total_days`. -/
def YearMonth.total_days (ym : YearMonth) : Nat :=
  match ym.month with
  | .January => 31
  | .Februari => if ym.year.has_leap_day then 29 else 28
  | .March => 31
  | .April => 30
  | .May => 31
  | .June => 30
  | .July => 31
  | .August => 31
  | .September => 30
  | .October => 31
  | .November => 30
  | .December => 31

/-- `YearMonth::next`. -/
def YearMonth.next (ym : YearMonth) : YearMonth :=
  if ym.month = .December then YearMonth.new ym.year.next .January
  else YearMonth.new ym.year ym.month.wrapping_next

/-- `YearMonth::prev`. -/
def YearMonth.prev (ym : YearMonth) : YearMonth :=
  if ym.month = .January then YearMonth.new ym.year.prev .December
  else YearMonth.new ym.year ym.month.wrapping_prev

/-- `Date`. -/
structure Date where
  year : Year
  month : Month
  day : Nat
  deriving DecidableEq, Repr

/-- `YearMonth::with_day`: range-check the day. -/
def YearMonth.with_day (ym : YearMonth) (day : Nat) : Option Date :=
  if day < 1 ∨ day > ym.total_days then none
  else some { year := ym.year, month := ym.month, day := day }

/-- `YearMonth::first_day`. -/
def YearMonth.first_day (ym : YearMonth) : Date :=
  { year := ym.year, month := ym.month, day := 1 }

/-- `YearMonth::last_day`. -/
def YearMonth.last_day (ym : YearMonth) : Date :=
  { year := ym.year, month := ym.month, day := ym.total_days }

/-- `Date::year_month`. -/
def Date.year_month (d : Date) : YearMonth := YearMonth.new d.year d.month

/-- `Date::new` for a numeric month: `Month::try_from` then
`YearMonth::with_day`. -/
def Date.new (year : Int) (month : Nat) (day : Nat) : Option Date :=
  match Month.new month with
  | none => none
  | some m => (YearMonth.new (Year.new year) m).with_day day

/-- `Date::next`: increment the day, rolling into the next month past its
last day.  The day increment wraps like a release-mode `u8`. -/
def Date.next (d : Date) : Date :=
  if d.day = d.year_month.total_days then d.year_month.next.first_day
  else { year := d.year, month := d.month, day := (d.day + 1) % 256 }

/-- `Date::prev`: decrement the day, rolling from day 1 into the last day
of the previous month.  The day decrement wraps like a release-mode
`u8`. -/
def Date.prev (d : Date) : Date :=
  if d.day = 1 then d.year_month.prev.last_day
  else { year := d.year, month := d.month, day := (d.day + 255) % 256 }

/-- `Date::from_str`: split on `-` into exactly three fields, parse them
as `i16`, `u8`, `u8`, and construct through `Date::new`. -/
def Date.from_str (data : RStr) : Option Date :=
  match rustSplitn 3 '-' data with
  | [_] => none
  | [_, _] => none
  | yearS :: monthS :: dayS :: _ =>
    match parseI16 yearS, parseU8 monthS, parseU8 dayS with
    | some y, some m, some d => Date.new y m d
    | _, _, _ => none
  | [] => none

/-- `{:04}` rendering of an `i16`: the zero padding counts the `-` sign
of a negative number toward the field width. -/
def fmtYear4 (y : Int) : RStr :=
  if y < 0 then '-' :: padZeros 3 (natDigits y.natAbs)
  else padZeros 4 (natDigits y.natAbs)

/-- The `Display` implementation of `Date`:
`"{:04}-{:02}-{:02}"` over year, month number and day. -/
def Date.display (d : Date) : RStr :=
  fmtYear4 d.year.year ++ '-' :: padZeros 2 (natDigits d.month.as_number)
    ++ '-' :: padZeros 2 (natDigits d.day)

/-- Validity of a calendar date: a representable `i16` year and a day in
range for the month. -/
def Date.IsValid (d : Date) : Prop :=
  -32768 ≤ d.year.year ∧ d.year.year ≤ 32767 ∧
  1 ≤ d.day ∧ d.day ≤ d.year_month.total_days

instance (d : Date) : Decidable d.IsValid := by
  unfold Date.IsValid
  infer_instance

end Greg

/-! ### The aggregation tool: `tools/src/bin/grootboek.rs` -/

/-- `Cents` addition as used by the aggregation layer (`self.0 +
other.0`): `i32` addition, which wraps in release builds like all other
machine arithmetic in this embedding. -/
def Cents.add (a b : Cents) : Cents := { val := wrap32 (a.val + b.val) }

/-- A node of the aggregation tree. -/
inductive Node (T : Type) where
  | mk (account : Account) (data : T) (children : List (Node T))

/-- The account of a node. -/
def Node.account {T : Type} : Node T → Account
  | .mk a _ _ => a

/-- The data of a node. -/
def Node.data {T : Type} : Node T → T
  | .mk _ d _ => d

/-- The children of a node. -/
def Node.children {T : Type} : Node T → List (Node T)
  | .mk _ _ c => c

/-- `Node::new`. -/
def Node.new {T : Type} (account : Account) (data : T) : Node T :=
  .mk account data []

mutual

/-- The walk loop of `Tree::insert`: starting below `n`, descend along
the remaining node path, creating missing children, and apply `update`
to the data of every node entered. -/
def insertWalk {T : Type} (update : T → T) (initial : T) (n : Node T) :
    List Account → Node T
  | [] => n
  | a :: rest => .mk n.account n.data (insertChildren update initial n.children a rest)
termination_by path => (path.length + 1, 0)

/-- One step of the walk over the child list: descend into the first
child with the wanted account, or push a fresh node at the end. -/
def insertChildren {T : Type} (update : T → T) (initial : T)
    (cs : List (Node T)) (a : Account) (rest : List Account) : List (Node T) :=
  match cs with
  | [] => [insertWalk update initial (.mk a (update initial) []) rest]
  | c :: more =>
    if c.account = a then
      insertWalk update initial (.mk c.account (update c.data) c.children) rest :: more
    else
      c :: insertChildren update initial more a rest
termination_by (rest.length + 1, cs.length + 1)

end

/-- The aggregation tree. -/
structure Tree (T : Type) where
  root : Node T

/-- `Tree::new`: a root node with an empty account path. -/
def Tree.new {T : Type} (rootData : T) : Tree T :=
  { root := Node.new (Account.from_raw []) rootData }

/-- `Tree::insert`: update the root data, then walk the node chain of the
account, creating missing nodes (with `initial` data) and updating every
node along the chain. -/
def Tree.insert {T : Type} (t : Tree T) (account : Account)
    (update : T → T) (initial : T) : Tree T :=
  { root := insertWalk update initial
      (.mk t.root.account (update t.root.data) t.root.children)
      account.walk_nodes }

/-- The sum of the mutation amounts of one transaction, folded exactly as
in `find_unbalanced`. -/
def transactionBalance (t : Transaction) : Cents :=
  t.mutations.foldl (fun sum m => sum.add m.amount) ⟨0⟩

/-- `find_unbalanced`: keep the transactions whose mutations do not sum
to zero, each paired with the residual. -/
def find_unbalanced (transactions : List Transaction) : List (Transaction × Cents) :=
  transactions.filterMap fun t =>
    let balance := transactionBalance t
    if balance ≠ ⟨0⟩ then some (t, balance) else none

/-- `compute_totals`: fold every mutation of every transaction into the
aggregation tree. -/
def compute_totals (transactions : List Transaction) : Tree Cents :=
  transactions.foldl
    (fun tree t =>
      t.mutations.foldl
        (fun tr m => tr.insert m.account (fun x => x.add m.amount) ⟨0⟩)
        tree)
    (Tree.new ⟨0⟩)

/-! ### Specification-side grammar predicates

These describe textual shapes in the words of the (amended) claims; the
theorems below relate them to the parsing functions embedded above. -/

/-- The shape accepted by the integer `FromStr` of a signed Rust type
with range `[lo, hi]`: an optional single sign, then one or more decimal
digits, with the signed value within range. -/
def SignedLit (lo hi : Int) (s : RStr) : Prop :=
  ∃ sign ds, (sign = ([] : RStr) ∨ sign = ['+'] ∨ sign = ['-']) ∧
    s = sign ++ ds ∧ ds ≠ [] ∧ (∀ c ∈ ds, c.isDigit = true) ∧
    lo ≤ (if sign = ['-'] then -(digitsVal 0 ds : Int) else (digitsVal 0 ds : Int)) ∧
    (if sign = ['-'] then -(digitsVal 0 ds : Int) else (digitsVal 0 ds : Int)) ≤ hi

/-- An `i32` literal shape. -/
def I32Lit (s : RStr) : Prop := SignedLit (-2147483648) 2147483647 s

/-- The amount-text shape actually accepted by `Cents::parse_from_str`:
either a single `i32` literal, or an `i32` literal, a dot, and a
two-character `i32` literal. -/
def C3Shape (s : RStr) : Prop :=
  (('.' ∉ s) ∧ I32Lit s) ∨
  (∃ w d2, s = w ++ '.' :: d2 ∧ '.' ∉ w ∧ d2.length = 2 ∧ I32Lit w ∧ I32Lit d2)

/-! ## Lemma layer -/

theorem isDigit_ofDigit (r : Nat) (h : r < 10) : (Char.ofNat (48 + r)).isDigit = true := by
  interval_cases r <;> decide

theorem mem_natDigitsAux_isDigit :
    ∀ (fuel n : Nat), ∀ c ∈ natDigitsAux fuel n, c.isDigit = true := by
  intro fuel
  induction fuel with
  | zero => intro n c hc; simp [natDigitsAux] at hc
  | succ fuel ih =>
    intro n c hc
    by_cases hn : n = 0
    · simp [natDigitsAux, hn] at hc
    · simp [natDigitsAux, hn, List.mem_append] at hc
      rcases hc with hc | hc
      · exact ih _ c hc
      · subst hc
        exact isDigit_ofDigit _ (Nat.mod_lt _ (by omega))

theorem mem_natDigits_isDigit (n : Nat) : ∀ c ∈ natDigits n, c.isDigit = true := by
  intro c hc
  by_cases hn : n = 0
  · simp [natDigits, hn] at hc
    subst hc; decide
  · simp [natDigits, hn] at hc
    exact mem_natDigitsAux_isDigit _ _ c hc

theorem mem_padZeros_isDigit (k : Nat) (s : RStr) (h : ∀ c ∈ s, c.isDigit = true) :
    ∀ c ∈ padZeros k s, c.isDigit = true := by
  intro c hc
  rcases List.mem_append.1 hc with hc | hc
  · rcases List.eq_of_mem_replicate hc with rfl; decide
  · exact h c hc

theorem isDigit_ne (c x : Char) (h : c.isDigit = true) (hx : x.isDigit = false) : c ≠ x := by
  intro he; subst he; rw [h] at hx; exact Bool.noConfusion hx

theorem digitsVal_append (a : Nat) (s t : RStr) :
    digitsVal a (s ++ t) = digitsVal (digitsVal a s) t := by
  simp [digitsVal, List.foldl_append]

theorem natDigitsAux_zero (fuel : Nat) : natDigitsAux fuel 0 = [] := by
  cases fuel <;> simp [natDigitsAux]

theorem natDigitsAux_val :
    ∀ (fuel n : Nat), n < fuel → ∀ a,
      digitsVal a (natDigitsAux fuel n) =
        if n = 0 then a else a * 10 ^ (natDigitsAux fuel n).length + n := by
  intro fuel
  induction fuel with
  | zero => intro n h; omega
  | succ fuel ih =>
    intro n h a
    by_cases hn : n = 0
    · simp [natDigitsAux, hn, digitsVal]
    · have hdiv : n / 10 < fuel := by
        have h1 : n / 10 < n := Nat.div_lt_self (by omega) (by omega)
        omega
      have hchar : (Char.ofNat (48 + n % 10)).toNat = 48 + n % 10 := by
        have : n % 10 < 10 := Nat.mod_lt _ (by omega)
        interval_cases h : (n % 10) <;> decide
      simp only [natDigitsAux, hn, if_false, ite_false]
      rw [digitsVal_append]
      rw [ih _ hdiv]
      by_cases hq : n / 10 = 0
      · simp only [hq, if_true, ite_true, natDigitsAux_zero, List.nil_append,
          List.length_cons, List.length_nil, digitsVal, List.foldl_cons, List.foldl_nil,
          hchar, pow_one]
        omega
      · simp only [hq, if_false, ite_false, digitsVal, List.foldl_cons, List.foldl_nil,
          List.length_append, List.length_cons, List.length_nil, hchar]
        have h48 : 48 + n % 10 - 48 = n % 10 := by omega
        rw [h48, pow_succ]
        have hmod : n % 10 + 10 * (n / 10) = n := Nat.mod_add_div n 10
        ring_nf
        omega

theorem natDigits_ne_nil (n : Nat) : natDigits n ≠ [] := by
  by_cases hn : n = 0
  · simp [natDigits, hn]
  · simp only [natDigits, hn, if_false, ite_false]
    cases hf : natDigitsAux (n + 1) n with
    | nil =>
      exfalso
      have := natDigitsAux_val (n + 1) n (by omega) 0
      rw [hf] at this
      simp [digitsVal, hn] at this
      omega
    | cons c rest => simp

theorem natDigits_val (n : Nat) : digitsVal 0 (natDigits n) = n := by
  by_cases hn : n = 0
  · simp [natDigits, hn, digitsVal]
  · simp only [natDigits, hn, if_false, ite_false]
    rw [natDigitsAux_val (n + 1) n (by omega) 0]
    simp [hn]

theorem digitsVal_replicate_zero (a k : Nat) :
    digitsVal a (List.replicate k '0') = a * 10 ^ k := by
  induction k generalizing a with
  | zero => simp [digitsVal]
  | succ k ih =>
    rw [List.replicate_succ]
    show digitsVal (a * 10 + ('0'.toNat - 48)) (List.replicate k '0') = a * 10 ^ (k + 1)
    rw [ih]
    have h0 : '0'.toNat - 48 = 0 := rfl
    rw [h0]
    ring

theorem digitsVal_padZeros (k : Nat) (s : RStr) :
    digitsVal 0 (padZeros k s) = digitsVal 0 s := by
  unfold padZeros
  rw [digitsVal_append, digitsVal_replicate_zero]
  simp

theorem parseDigits_eq_some_iff (s : RStr) (v : Nat) :
    parseDigits s = some v ↔ s ≠ [] ∧ (∀ c ∈ s, c.isDigit = true) ∧ digitsVal 0 s = v := by
  unfold parseDigits
  split_ifs with h1 h2
  · simp [h1]
  · simp only [Option.some.injEq]
    constructor
    · intro h; exact ⟨h1, by simpa [List.all_eq_true] using h2, h⟩
    · intro ⟨_, _, h⟩; exact h
  · simp only [List.all_eq_true] at h2
    constructor
    · intro h; exact absurd h (by simp)
    · intro ⟨_, hd, _⟩; exact absurd hd h2

theorem parseDigits_padZeros_natDigits (k n : Nat) :
    parseDigits (padZeros k (natDigits n)) = some n := by
  rw [parseDigits_eq_some_iff]
  refine ⟨?_, mem_padZeros_isDigit _ _ (mem_natDigits_isDigit n), ?_⟩
  · have := natDigits_ne_nil n
    unfold padZeros
    intro h
    rcases List.append_eq_nil.mp h with ⟨_, h2⟩
    exact this h2
  · rw [digitsVal_padZeros, natDigits_val]

theorem rustParseSigned_all_digits (lo hi : Int) (s : RStr)
    (h1 : s ≠ []) (h2 : ∀ c ∈ s, c.isDigit = true) :
    rustParseSigned lo hi s =
      if lo ≤ (digitsVal 0 s : Int) ∧ (digitsVal 0 s : Int) ≤ hi
      then some ((digitsVal 0 s : Int)) else none := by
  cases s with
  | nil => exact absurd rfl h1
  | cons c rest =>
    have hc : c.isDigit = true := h2 c (List.mem_cons_self c rest)
    have hplus : c ≠ '+' := isDigit_ne c '+' hc (by decide)
    have hminus : c ≠ '-' := isDigit_ne c '-' hc (by decide)
    have hbody : parseDigits (c :: rest) = some (digitsVal 0 (c :: rest)) := by
      rw [parseDigits_eq_some_iff]
      exact ⟨by simp, h2, rfl⟩
    simp only [rustParseSigned, hplus, hminus, if_false, ite_false, hbody]
    rfl

theorem rustParseUnsigned_all_digits (hi : Nat) (s : RStr)
    (h1 : s ≠ []) (h2 : ∀ c ∈ s, c.isDigit = true) :
    rustParseUnsigned hi s =
      if digitsVal 0 s ≤ hi then some (digitsVal 0 s) else none := by
  cases s with
  | nil => exact absurd rfl h1
  | cons c rest =>
    have hc : c.isDigit = true := h2 c (List.mem_cons_self c rest)
    have hplus : c ≠ '+' := isDigit_ne c '+' hc (by decide)
    have hbody : parseDigits (c :: rest) = some (digitsVal 0 (c :: rest)) := by
      rw [parseDigits_eq_some_iff]
      exact ⟨by simp, h2, rfl⟩
    simp only [rustParseUnsigned, hplus, if_false, ite_false, hbody]

theorem padZeros_natDigits_ne_nil (k n : Nat) : padZeros k (natDigits n) ≠ [] := by
  have := natDigits_ne_nil n
  unfold padZeros
  intro hnil
  rcases List.append_eq_nil.mp hnil with ⟨_, h2⟩
  exact this h2

theorem parseI16_padded_natDigits (n : Nat) (k : Nat) (h : n ≤ 32767) :
    parseI16 (padZeros k (natDigits n)) = some (n : Int) := by
  unfold parseI16
  rw [rustParseSigned_all_digits _ _ _ (padZeros_natDigits_ne_nil k n)
    (mem_padZeros_isDigit _ _ (mem_natDigits_isDigit n))]
  rw [digitsVal_padZeros, natDigits_val]
  rw [if_pos (by constructor <;> omega)]

theorem parseU8_padded_natDigits (n : Nat) (k : Nat) (h : n ≤ 255) :
    parseU8 (padZeros k (natDigits n)) = some n := by
  unfold parseU8
  rw [rustParseUnsigned_all_digits _ _ (padZeros_natDigits_ne_nil k n)
    (mem_padZeros_isDigit _ _ (mem_natDigits_isDigit n))]
  rw [digitsVal_padZeros, natDigits_val, if_pos h]

/-! Lemmas about `splitOnce` and `rustSplitn`. -/

theorem splitOnce_eq_none_iff (sep : Char) (s : RStr) :
    splitOnce sep s = none ↔ sep ∉ s := by
  induction s with
  | nil => simp [splitOnce]
  | cons c rest ih =>
    by_cases hc : c = sep
    · subst hc; simp [splitOnce]
    · simp only [splitOnce, hc, if_false, ite_false, Option.map_eq_none', ih,
        List.mem_cons]
      constructor
      · intro h hm
        rcases hm with hm | hm
        · exact hc hm.symm
        · exact h hm
      · intro h hm
        exact h (Or.inr hm)

theorem splitOnce_append_sep (sep : Char) (a b : RStr) (h : sep ∉ a) :
    splitOnce sep (a ++ sep :: b) = some (a, b) := by
  induction a with
  | nil => simp [splitOnce]
  | cons c mid ih =>
    have hc : c ≠ sep := by intro he; exact h (he ▸ List.mem_cons_self c mid)
    have hrest : sep ∉ mid := fun hm => h (List.mem_cons_of_mem c hm)
    calc splitOnce sep ((c :: mid) ++ sep :: b)
        = (splitOnce sep (mid ++ sep :: b)).map (fun p => (c :: p.1, p.2)) := by
          rw [List.cons_append]
          simp [splitOnce, hc]
      _ = (some (mid, b)).map (fun p => (c :: p.1, p.2)) := by rw [ih hrest]
      _ = some (c :: mid, b) := rfl

theorem splitOnce_eq_some_iff (sep : Char) (s x y : RStr) :
    splitOnce sep s = some (x, y) ↔ s = x ++ sep :: y ∧ sep ∉ x := by
  constructor
  · intro h
    induction s generalizing x y with
    | nil => simp [splitOnce] at h
    | cons c rest ih =>
      by_cases hc : c = sep
      · subst hc
        simp only [splitOnce, if_pos rfl, Option.some.injEq, Prod.mk.injEq] at h
        rcases h with ⟨rfl, rfl⟩
        simp
      · simp only [splitOnce, hc, if_false, ite_false, Option.map_eq_some'] at h
        rcases h with ⟨⟨a, b⟩, hab, heq⟩
        simp only [Prod.mk.injEq] at heq
        rcases heq with ⟨hx, hy⟩
        rcases ih a b hab with ⟨hr, hmem⟩
        subst hy
        constructor
        · rw [← hx]; simp [hr]
        · rw [← hx]
          intro hm
          rcases List.mem_cons.mp hm with hm | hm
          · exact hc hm.symm
          · exact hmem hm
  · intro ⟨h1, h2⟩
    subst h1
    exact splitOnce_append_sep sep x y h2

theorem rustSplitn_three (sep : Char) (s : RStr) :
    rustSplitn 3 sep s =
      match splitOnce sep s with
      | none => [s]
      | some (a, b) => a :: rustSplitn 2 sep b := rfl

theorem rustSplitn_two (sep : Char) (s : RStr) :
    rustSplitn 2 sep s =
      match splitOnce sep s with
      | none => [s]
      | some (a, b) => [a, b] := rfl

theorem rustSplitn3_exact (sep : Char) (a b c : RStr) (ha : sep ∉ a) (hb : sep ∉ b) :
    rustSplitn 3 sep (a ++ sep :: (b ++ sep :: c)) = [a, b, c] := by
  rw [rustSplitn_three, splitOnce_append_sep sep a _ ha]
  show a :: rustSplitn 2 sep (b ++ sep :: c) = [a, b, c]
  rw [rustSplitn_two, splitOnce_append_sep sep b _ hb]

/-! Lemmas about `rustTrim`. -/

theorem dropWhile_head?_false {p : Char → Bool} {l : RStr} {c : Char}
    (h : (l.dropWhile p).head? = some c) : p c = false := by
  induction l with
  | nil => simp [List.dropWhile] at h
  | cons x rest ih =>
    by_cases hx : p x
    · rw [List.dropWhile_cons_of_pos hx] at h
      exact ih h
    · rw [List.dropWhile_cons_of_neg hx] at h
      simp at h
      subst h
      exact Bool.not_eq_true _ ▸ (by simpa using hx)

theorem dropWhile_getLast?_of_ne_nil {p : Char → Bool} {l : RStr}
    (h : l.dropWhile p ≠ []) : (l.dropWhile p).getLast? = l.getLast? := by
  induction l with
  | nil => simp [List.dropWhile] at h
  | cons x rest ih =>
    by_cases hx : p x
    · rw [List.dropWhile_cons_of_pos hx] at h ⊢
      rw [ih h]
      have hrest : rest ≠ [] := by
        intro he
        rw [he] at h
        simp [List.dropWhile] at h
      cases rest with
      | nil => exact absurd rfl hrest
      | cons y t => rw [List.getLast?_cons_cons]
    · rw [List.dropWhile_cons_of_neg hx]

theorem dropWhile_eq_self_of_head {p : Char → Bool} {l : RStr}
    (h : ∀ c, l.head? = some c → p c = false) : l.dropWhile p = l := by
  cases l with
  | nil => rfl
  | cons x rest =>
    have := h x rfl
    rw [List.dropWhile_cons_of_neg (by simp [this])]

theorem rustTrim_idem (s : RStr) : rustTrim (rustTrim s) = rustTrim s := by
  unfold rustTrim
  set u := s.dropWhile rustIsWhitespace with hu
  set v := u.reverse.dropWhile rustIsWhitespace with hv
  have hfront : v.reverse.dropWhile rustIsWhitespace = v.reverse := by
    apply dropWhile_eq_self_of_head
    intro c hc
    rw [List.head?_reverse] at hc
    by_cases hvnil : v = []
    · rw [hvnil] at hc; simp at hc
    · rw [hv, dropWhile_getLast?_of_ne_nil (hv ▸ hvnil)] at hc
      rw [List.getLast?_reverse] at hc
      exact dropWhile_head?_false (hu ▸ hc)
  rw [hfront]
  have hback : v.reverse.reverse.dropWhile rustIsWhitespace = v := by
    rw [List.reverse_reverse]
    apply dropWhile_eq_self_of_head
    intro c hc
    exact dropWhile_head?_false (hv ▸ hc)
  rw [hback]

/-! Lemmas about wrapping arithmetic. -/

theorem wrap16_bounds (v : Int) : -32768 ≤ wrap16 v ∧ wrap16 v ≤ 32767 := by
  unfold wrap16
  omega

theorem wrap16_eq_self (v : Int) (h1 : -32768 ≤ v) (h2 : v ≤ 32767) : wrap16 v = v := by
  unfold wrap16
  omega

theorem wrap16_add_sub (y : Int) (h1 : -32768 ≤ y) (h2 : y ≤ 32767) :
    wrap16 (wrap16 (y + 1) - 1) = y := by
  unfold wrap16
  omega

theorem wrap16_sub_add (y : Int) (h1 : -32768 ≤ y) (h2 : y ≤ 32767) :
    wrap16 (wrap16 (y - 1) + 1) = y := by
  unfold wrap16
  omega

theorem wrap32_bounds (v : Int) :
    -2147483648 ≤ wrap32 v ∧ wrap32 v ≤ 2147483647 := by
  unfold wrap32
  omega

theorem wrap32_eq_self (v : Int) (h1 : -2147483648 ≤ v) (h2 : v ≤ 2147483647) :
    wrap32 v = v := by
  unfold wrap32
  omega

theorem wrap32_add_left (a b : Int) : wrap32 (wrap32 a + b) = wrap32 (a + b) := by
  unfold wrap32
  omega

/-! Lemmas about the aggregation tool. -/

theorem filterMap_ite {α β : Type} (p : α → Prop) [DecidablePred p] (g : α → β)
    (ts : List α) :
    ts.filterMap (fun t => if p t then some (g t) else none) =
      (ts.filter (fun t => decide (p t))).map g := by
  induction ts with
  | nil => rfl
  | cons t ts ih =>
    by_cases hp : p t <;>
      simp [List.filterMap_cons, List.filter_cons, hp, ih]

theorem foldl_cents_add (ms : List Mutation) (a : Cents)
    (h1 : -2147483648 ≤ a.val) (h2 : a.val ≤ 2147483647) :
    (ms.foldl (fun sum m => sum.add m.amount) a).val =
      wrap32 (a.val + (ms.map (fun m => m.amount.val)).sum) := by
  induction ms generalizing a with
  | nil => simp [wrap32_eq_self a.val h1 h2]
  | cons m ms ih =>
    have hb := wrap32_bounds (a.val + m.amount.val)
    have hstep : (a.add m.amount).val = wrap32 (a.val + m.amount.val) := rfl
    rw [List.foldl_cons, ih (a.add m.amount) (by rw [hstep]; exact hb.1)
      (by rw [hstep]; exact hb.2)]
    simp only [List.map_cons, List.sum_cons, hstep, wrap32_add_left, add_assoc]

theorem insertWalk_data {T : Type} (u : T → T) (i : T) (n : Node T)
    (path : List Account) : (insertWalk u i n path).data = n.data := by
  cases path <;> simp [insertWalk, Node.data]

theorem insert_root_data {T : Type} (t : Tree T) (acc : Account) (u : T → T) (i : T) :
    (Tree.insert t acc u i).root.data = u t.root.data := by
  show (insertWalk u i (.mk t.root.account (u t.root.data) t.root.children)
    acc.walk_nodes).data = u t.root.data
  rw [insertWalk_data]
  rfl

theorem foldl_insert_muts (ms : List Mutation) (tree : Tree Cents)
    (h1 : -2147483648 ≤ tree.root.data.val) (h2 : tree.root.data.val ≤ 2147483647) :
    ((ms.foldl (fun tr m => tr.insert m.account (fun x => x.add m.amount) ⟨0⟩)
      tree).root.data).val =
      wrap32 (tree.root.data.val + (ms.map (fun m => m.amount.val)).sum) := by
  induction ms generalizing tree with
  | nil => simp [wrap32_eq_self _ h1 h2]
  | cons m ms ih =>
    have hroot : (tree.insert m.account (fun x => x.add m.amount) ⟨0⟩).root.data.val =
        wrap32 (tree.root.data.val + m.amount.val) := by
      rw [insert_root_data]
      rfl
    have hb := wrap32_bounds (tree.root.data.val + m.amount.val)
    rw [List.foldl_cons,
      ih (tree.insert m.account (fun x => x.add m.amount) ⟨0⟩)
        (by rw [hroot]; exact hb.1) (by rw [hroot]; exact hb.2)]
    simp only [List.map_cons, List.sum_cons, hroot, wrap32_add_left, add_assoc]

theorem foldl_insert_txs (ts : List Transaction) (tree : Tree Cents)
    (h1 : -2147483648 ≤ tree.root.data.val) (h2 : tree.root.data.val ≤ 2147483647) :
    ((ts.foldl
      (fun tr t => t.mutations.foldl
        (fun tr2 m => tr2.insert m.account (fun x => x.add m.amount) ⟨0⟩) tr)
      tree).root.data).val =
      wrap32 (tree.root.data.val +
        (ts.map (fun t => (t.mutations.map (fun m => m.amount.val)).sum)).sum) := by
  induction ts generalizing tree with
  | nil => simp [wrap32_eq_self _ h1 h2]
  | cons t ts ih =>
    have hinner := foldl_insert_muts t.mutations tree h1 h2
    set tree2 := t.mutations.foldl
      (fun tr2 m => tr2.insert m.account (fun x => x.add m.amount) ⟨0⟩) tree with htree2
    have hb := wrap32_bounds (tree.root.data.val +
      (t.mutations.map (fun m => m.amount.val)).sum)
    rw [List.foldl_cons,
      ih tree2 (by rw [hinner]; exact hb.1) (by rw [hinner]; exact hb.2)]
    simp only [List.map_cons, List.sum_cons, hinner, wrap32_add_left, add_assoc]

/-! ## Claim theorems -/

/-- C1 counterexample: the residual is computed with `i32` addition,
which wraps past the `i32` range.  A transaction with the representable
mutation amounts `2147483647` and `1` is returned paired with the
wrapped residual `Cents(-2147483648)`, not the exact sum `2147483648`;
and a transaction with four mutations of `2^30` cents, whose exact sum
`2^32` is non-zero, is not returned at all because its wrapped residual
is zero. -/
theorem c1_counterexample :
    find_unbalanced [⟨⟨2020, 1, 2⟩, [], [],
        [⟨⟨2147483647⟩, Account.from_raw ['a']⟩, ⟨⟨1⟩, Account.from_raw ['b']⟩]⟩] =
      [(⟨⟨2020, 1, 2⟩, [], [],
        [⟨⟨2147483647⟩, Account.from_raw ['a']⟩, ⟨⟨1⟩, Account.from_raw ['b']⟩]⟩,
        ⟨-2147483648⟩)] ∧
    ((2147483647 : Int) + 1 = 2147483648 ∧ (-2147483648 : Int) ≠ 2147483648) ∧
    find_unbalanced [⟨⟨2020, 1, 2⟩, [], [],
        [⟨⟨1073741824⟩, Account.from_raw ['a']⟩, ⟨⟨1073741824⟩, Account.from_raw ['a']⟩,
         ⟨⟨1073741824⟩, Account.from_raw ['a']⟩, ⟨⟨1073741824⟩, Account.from_raw ['a']⟩]⟩] =
      [] ∧
    (1073741824 : Int) + 1073741824 + 1073741824 + 1073741824 ≠ 0 :=
  ⟨by decide, ⟨by decide, by decide⟩, by decide, by decide⟩

/-- C1 (amended): `find_unbalanced` returns exactly the transactions
whose mutations do not sum to zero under the program's `i32` Cents
addition (two-complement wrapping in release builds), in input order,
each paired with that wrapped residual; the residual equals the `i32`
wrap of the exact sum of the mutation amounts, hence the exact sum
whenever it fits in `i32`; a transaction whose wrapped residual is zero
is never returned; and the `+10.00 a`, `-5.00 b` transaction is returned
with residual `Cents 500`. -/
theorem c1_find_unbalanced_exact :
    (∀ ts : List Transaction,
      find_unbalanced ts =
        (ts.filter (fun t => decide (transactionBalance t ≠ ⟨0⟩))).map
          (fun t => (t, transactionBalance t))) ∧
    (∀ t : Transaction,
      (transactionBalance t).val =
        wrap32 ((t.mutations.map (fun m => m.amount.val)).sum)) ∧
    (∀ (ts : List Transaction) (t : Transaction), transactionBalance t = ⟨0⟩ →
      ∀ c, (t, c) ∉ find_unbalanced ts) ∧
    (find_unbalanced [⟨⟨2020, 1, 2⟩, [], [],
        [⟨⟨1000⟩, Account.from_raw ['a']⟩, ⟨⟨-500⟩, Account.from_raw ['b']⟩]⟩] =
      [(⟨⟨2020, 1, 2⟩, [], [],
        [⟨⟨1000⟩, Account.from_raw ['a']⟩, ⟨⟨-500⟩, Account.from_raw ['b']⟩]⟩,
        ⟨500⟩)]) := by
  have hmain : ∀ ts : List Transaction,
      find_unbalanced ts =
        (ts.filter (fun t => decide (transactionBalance t ≠ ⟨0⟩))).map
          (fun t => (t, transactionBalance t)) := by
    intro ts
    exact filterMap_ite (fun t => transactionBalance t ≠ ⟨0⟩)
      (fun t => (t, transactionBalance t)) ts
  refine ⟨hmain, ?_, ?_, ?_⟩
  · intro t
    simpa using foldl_cents_add t.mutations ⟨0⟩ (by norm_num) (by norm_num)
  · intro ts t hbal c hmem
    rw [hmain ts] at hmem
    rcases List.mem_map.1 hmem with ⟨x, hx, hxeq⟩
    rcases Prod.mk.injEq .. ▸ hxeq with ⟨rfl, rfl⟩
    have := List.of_mem_filter hx
    simp [hbal] at this
  · decide

/-- C2 counterexample: the root balance accumulates with `i32` addition,
so for a transaction whose representable amounts `2147483647` and `1`
sum past the `i32` range the root carries the wrapped value
`-2147483648`, not the exact grand total `2147483648`. -/
theorem c2_counterexample :
    (compute_totals [⟨⟨2020, 1, 2⟩, [], [],
        [⟨⟨2147483647⟩, Account.from_raw ['a']⟩,
         ⟨⟨1⟩, Account.from_raw ['b']⟩]⟩]).root.data.val = -2147483648 ∧
    (2147483647 : Int) + 1 = 2147483648 ∧
    (-2147483648 : Int) ≠ 2147483648 := by
  refine ⟨?_, by decide, by decide⟩
  unfold compute_totals
  rw [foldl_insert_txs _ _ (by decide) (by decide)]
  decide

/-- C2 (amended): the root of the tree built by `compute_totals` carries
the `i32` wrap (release-build two-complement) of the sum of all mutation
amounts of all transactions, for every input including the empty one;
whenever that grand total fits in the `i32` range the root is exactly
the grand total. -/
theorem c2_compute_totals_root :
    (∀ ts : List Transaction,
      (compute_totals ts).root.data.val =
        wrap32 ((ts.map (fun t => (t.mutations.map (fun m => m.amount.val)).sum)).sum)) ∧
    (∀ ts : List Transaction,
      -2147483648 ≤ (ts.map (fun t => (t.mutations.map (fun m => m.amount.val)).sum)).sum →
      (ts.map (fun t => (t.mutations.map (fun m => m.amount.val)).sum)).sum ≤ 2147483647 →
      (compute_totals ts).root.data.val =
        (ts.map (fun t => (t.mutations.map (fun m => m.amount.val)).sum)).sum) := by
  have hmain : ∀ ts : List Transaction,
      (compute_totals ts).root.data.val =
        wrap32 ((ts.map (fun t => (t.mutations.map (fun m => m.amount.val)).sum)).sum) := by
    intro ts
    unfold compute_totals
    rw [foldl_insert_txs ts (Tree.new ⟨0⟩) (by decide) (by decide)]
    have h0 : (Tree.new (⟨0⟩ : Cents)).root.data.val = (0 : Int) := rfl
    rw [h0, zero_add]
  refine ⟨hmain, ?_⟩
  intro ts hlo hhi
  rw [hmain ts]
  exact wrap32_eq_self _ hlo hhi

/-- Witness for C1: the third conjunct applied to a concrete balanced
transaction. -/
theorem c1_find_unbalanced_exact_witness :
    transactionBalance ⟨⟨2020, 1, 2⟩, [], [], []⟩ = ⟨0⟩ ∧
    (⟨⟨2020, 1, 2⟩, [], [], []⟩, (⟨7⟩ : Cents)) ∉
      find_unbalanced [⟨⟨2020, 1, 2⟩, [], [], []⟩] :=
  ⟨by decide, c1_find_unbalanced_exact.2.2.1 [⟨⟨2020, 1, 2⟩, [], [], []⟩]
    ⟨⟨2020, 1, 2⟩, [], [], []⟩ (by decide) ⟨7⟩⟩

/-- Witness for C2: the exact-total conjunct applied to the mutations
`a/b +100` and `a/c +50` of the specification example, whose grand total
`150` is within the `i32` range. -/
theorem c2_compute_totals_root_witness :
    -2147483648 ≤ (([⟨⟨2020, 1, 2⟩, [], [],
        [⟨⟨100⟩, Account.from_raw ("a/b".toList)⟩,
         ⟨⟨50⟩, Account.from_raw ("a/c".toList)⟩]⟩] : List Transaction).map
        (fun t => (t.mutations.map (fun m => m.amount.val)).sum)).sum ∧
    (([⟨⟨2020, 1, 2⟩, [], [],
        [⟨⟨100⟩, Account.from_raw ("a/b".toList)⟩,
         ⟨⟨50⟩, Account.from_raw ("a/c".toList)⟩]⟩] : List Transaction).map
        (fun t => (t.mutations.map (fun m => m.amount.val)).sum)).sum ≤ 2147483647 ∧
    (compute_totals [⟨⟨2020, 1, 2⟩, [], [],
        [⟨⟨100⟩, Account.from_raw ("a/b".toList)⟩,
         ⟨⟨50⟩, Account.from_raw ("a/c".toList)⟩]⟩]).root.data.val =
      (([⟨⟨2020, 1, 2⟩, [], [],
        [⟨⟨100⟩, Account.from_raw ("a/b".toList)⟩,
         ⟨⟨50⟩, Account.from_raw ("a/c".toList)⟩]⟩] : List Transaction).map
        (fun t => (t.mutations.map (fun m => m.amount.val)).sum)).sum :=
  ⟨by decide, by decide,
    c2_compute_totals_root.2 [⟨⟨2020, 1, 2⟩, [], [],
        [⟨⟨100⟩, Account.from_raw ("a/b".toList)⟩,
         ⟨⟨50⟩, Account.from_raw ("a/c".toList)⟩]⟩] (by decide) (by decide)⟩

/-! Lemmas for the ledger calendar invariant (claim C10). -/

theorem days_in_month_bounds (m : Int) (l : Bool) (h1 : 1 ≤ m) (h2 : m ≤ 12) :
    ∃ dim, GB.days_in_month m l = some dim ∧ 28 ≤ dim ∧ dim ≤ 31 := by
  interval_cases m <;> cases l <;>
    first
      | exact ⟨28, rfl, by norm_num, by norm_num⟩
      | exact ⟨29, rfl, by norm_num, by norm_num⟩
      | exact ⟨30, rfl, by norm_num, by norm_num⟩
      | exact ⟨31, rfl, by norm_num, by norm_num⟩

theorem valid_mk (y m d : Int) (dim : Int)
    (h1 : 1 ≤ m) (h2 : m ≤ 12) (h3 : 1 ≤ d)
    (hd : GB.days_in_month m (GB.is_leap_year y) = some dim) (h4 : d ≤ dim) :
    GB.Date.Valid ⟨y, m, d⟩ := by
  refine ⟨h1, h2, h3, ?_⟩
  show d ≤ (GB.days_in_month m (GB.is_leap_year y)).getD 0
  rw [hd]
  exact h4

theorem from_parts_isSome (y m d : Int) : (GB.Date.from_parts y m d).isSome := by
  unfold GB.Date.from_parts
  by_cases hr : m < 1 ∨ m > 12
  · rw [if_pos hr]; rfl
  · rw [if_neg hr]
    obtain ⟨dim, hd, _, _⟩ := days_in_month_bounds m (GB.is_leap_year y)
      (by omega) (by omega)
    rw [hd, Option.map_some']
    rfl

theorem from_parts_ok_valid (y m d : Int) (t : GB.Date)
    (h : GB.Date.from_parts y m d = some (.ok t)) : t.Valid := by
  unfold GB.Date.from_parts at h
  by_cases hr : m < 1 ∨ m > 12
  · rw [if_pos hr] at h
    simp at h
  · rw [if_neg hr] at h
    obtain ⟨dim, hd, hd28, _⟩ := days_in_month_bounds m (GB.is_leap_year y)
      (by omega) (by omega)
    rw [hd, Option.map_some'] at h
    by_cases hday : d < 1 ∨ d > dim
    · rw [if_pos hday] at h
      simp at h
    · rw [if_neg hday] at h
      simp only [Option.some.injEq] at h
      cases h
      exact valid_mk y m d dim (by omega) (by omega) (by omega) hd (by omega)

theorem parse_from_str_ok_valid (s : RStr) (t : GB.Date)
    (h : GB.Date.parse_from_str s = some (.ok t)) : t.Valid := by
  unfold GB.Date.parse_from_str at h
  split at h
  · exact from_parts_ok_valid _ _ _ _ h
  · simp at h

theorem first_day_next_year_valid (t : GB.Date) : t.first_day_next_year.Valid := by
  show GB.Date.Valid ⟨wrap32 (t.year + 1), 1, 1⟩
  exact valid_mk _ 1 1 31 (by norm_num) (by norm_num) (by norm_num) rfl (by norm_num)

theorem last_day_of_year_valid (t : GB.Date) : t.last_day_of_year.Valid := by
  show GB.Date.Valid ⟨t.year, 12, 31⟩
  exact valid_mk _ 12 31 31 (by norm_num) (by norm_num) (by norm_num) rfl (by norm_num)

theorem first_day_next_month_valid (t : GB.Date) (h : t.Valid) :
    t.first_day_next_month.Valid := by
  obtain ⟨h1, h2, _, _⟩ := h
  unfold GB.Date.first_day_next_month
  by_cases h12 : t.month = 12
  · rw [if_pos h12]
    exact first_day_next_year_valid t
  · rw [if_neg h12]
    obtain ⟨dim, hd, hd28, _⟩ :=
      days_in_month_bounds (t.month + 1) (GB.is_leap_year t.year) (by omega) (by omega)
    exact valid_mk t.year (t.month + 1) 1 dim (by omega) (by omega) (by norm_num)
      hd (by omega)

theorem valid_getD_eq (t : GB.Date) (h : t.Valid) :
    ∃ dim, GB.days_in_month t.month t.isLeapYear = some dim ∧
      28 ≤ dim ∧ dim ≤ 31 ∧ t.day ≤ dim := by
  obtain ⟨h1, h2, h3, h4⟩ := h
  obtain ⟨dim, hd, hb1, hb2⟩ :=
    days_in_month_bounds t.month (GB.Date.isLeapYear t) (by omega) (by omega)
  refine ⟨dim, hd, hb1, hb2, ?_⟩
  rw [hd] at h4
  simpa using h4

theorem last_day_of_month_valid (t : GB.Date) (h : t.Valid) :
    ∃ t2, t.last_day_of_month = some t2 ∧ t2.Valid := by
  obtain ⟨dim, hd, hd28, _, _⟩ := valid_getD_eq t h
  obtain ⟨h1, h2, _, _⟩ := h
  refine ⟨⟨t.year, t.month, dim⟩, ?_, ?_⟩
  · unfold GB.Date.last_day_of_month
    rw [hd, Option.map_some']
  · exact valid_mk t.year t.month dim dim (by omega) (by omega) (by omega) hd le_rfl

theorem next_day_valid (t : GB.Date) (h : t.Valid) :
    ∃ t2, t.next_day = some t2 ∧ t2.Valid := by
  obtain ⟨dim, hd, hd28, _, hday⟩ := valid_getD_eq t h
  obtain ⟨h1, h2, h3, h4⟩ := h
  unfold GB.Date.next_day
  rw [hd, Option.map_some']
  by_cases heq : t.day = dim
  · rw [if_pos heq]
    exact ⟨t.first_day_next_month, rfl,
      first_day_next_month_valid t ⟨h1, h2, h3, h4⟩⟩
  · rw [if_neg heq]
    exact ⟨⟨t.year, t.month, t.day + 1⟩, rfl,
      valid_mk t.year t.month (t.day + 1) dim (by omega) (by omega) (by omega)
        hd (by omega)⟩

theorem applyOps_valid (ops : List GB.Op) (t : GB.Date) (h : t.Valid) :
    ∃ t2, GB.applyOps ops t = some t2 ∧ t2.Valid := by
  induction ops generalizing t with
  | nil => exact ⟨t, rfl, h⟩
  | cons op rest ih =>
    have hstep : ∃ t1, GB.applyOp op t = some t1 ∧ t1.Valid := by
      cases op with
      | nextDay => exact next_day_valid t h
      | firstDayNextMonth =>
        exact ⟨_, rfl, first_day_next_month_valid t h⟩
      | firstDayNextYear => exact ⟨_, rfl, first_day_next_year_valid t⟩
      | lastDayOfMonth => exact last_day_of_month_valid t h
      | lastDayOfYear => exact ⟨_, rfl, last_day_of_year_valid t⟩
    obtain ⟨t1, hstep1, hstep2⟩ := hstep
    obtain ⟨t2, hrec1, hrec2⟩ := ih t1 hstep2
    refine ⟨t2, ?_, hrec2⟩
    unfold GB.applyOps
    rw [hstep1]
    show GB.applyOps rest t1 = some t2
    exact hrec1

/-- C10: every ledger date produced by `from_parts` or `parse_from_str`
satisfies the month/day invariant; the constructors themselves never hit
the panicking arm of `days_in_month`; and any finite sequence of
`next_day`, `first_day_next_month`, `first_day_next_year`,
`last_day_of_month`, `last_day_of_year` applied to a valid date always
produces a valid date without reaching the panic arm. -/
theorem c10_calendar_invariant :
    (∀ y m d : Int, (GB.Date.from_parts y m d).isSome) ∧
    (∀ (y m d : Int) (t : GB.Date),
      GB.Date.from_parts y m d = some (.ok t) → t.Valid) ∧
    (∀ (s : RStr) (t : GB.Date),
      GB.Date.parse_from_str s = some (.ok t) → t.Valid) ∧
    (∀ (t : GB.Date) (ops : List GB.Op), t.Valid →
      ∃ t2, GB.applyOps ops t = some t2 ∧ t2.Valid) :=
  ⟨from_parts_isSome, from_parts_ok_valid, parse_from_str_ok_valid,
    fun t ops h => applyOps_valid ops t h⟩

/-- Witness for C10: the operation-closure conjunct applied to
2020-02-28 with a concrete sequence of calendar operations. -/
theorem c10_calendar_invariant_witness :
    GB.Date.Valid ⟨2020, 2, 28⟩ ∧
    ∃ t2, GB.applyOps [GB.Op.nextDay, GB.Op.nextDay, GB.Op.lastDayOfMonth]
      ⟨2020, 2, 28⟩ = some t2 ∧ t2.Valid :=
  ⟨by decide, c10_calendar_invariant.2.2.2 ⟨2020, 2, 28⟩
    [GB.Op.nextDay, GB.Op.nextDay, GB.Op.lastDayOfMonth] (by decide)⟩

/-! Lemmas for the Gregorian calendar (claims C7 and C8). -/

theorem total_days_bounds (ym : Greg.YearMonth) :
    28 ≤ ym.total_days ∧ ym.total_days ≤ 31 := by
  obtain ⟨y, m⟩ := ym
  cases m <;> dsimp [Greg.YearMonth.total_days] <;>
    first
      | omega
      | (split <;> omega)

theorem ym_next_prev (ym : Greg.YearMonth) (h1 : -32768 ≤ ym.year.year)
    (h2 : ym.year.year ≤ 32767) : ym.next.prev = ym := by
  obtain ⟨⟨y⟩, m⟩ := ym
  dsimp at h1 h2
  cases m <;> first
    | rfl
    | (show Greg.YearMonth.mk ⟨wrap16 (wrap16 (y + 1) - 1)⟩ .December =
          Greg.YearMonth.mk ⟨y⟩ .December
       rw [wrap16_add_sub y h1 h2])

theorem next_year_bounds (ym : Greg.YearMonth) (h1 : -32768 ≤ ym.year.year)
    (h2 : ym.year.year ≤ 32767) :
    -32768 ≤ ym.next.year.year ∧ ym.next.year.year ≤ 32767 := by
  obtain ⟨⟨y⟩, m⟩ := ym
  dsimp at h1 h2
  cases m <;> first
    | exact ⟨h1, h2⟩
    | exact wrap16_bounds (y + 1)

theorem prev_year_bounds (ym : Greg.YearMonth) (h1 : -32768 ≤ ym.year.year)
    (h2 : ym.year.year ≤ 32767) :
    -32768 ≤ ym.prev.year.year ∧ ym.prev.year.year ≤ 32767 := by
  obtain ⟨⟨y⟩, m⟩ := ym
  dsimp at h1 h2
  cases m <;> first
    | exact ⟨h1, h2⟩
    | exact wrap16_bounds (y - 1)

theorem greg_valid_mk (y : Int) (m : Greg.Month) (day : Nat)
    (h1 : -32768 ≤ y) (h2 : y ≤ 32767) (h3 : 1 ≤ day)
    (h4 : day ≤ Greg.YearMonth.total_days ⟨⟨y⟩, m⟩) :
    Greg.Date.IsValid ⟨⟨y⟩, m, day⟩ :=
  ⟨h1, h2, h3, h4⟩

/-- C8: for every valid Gregorian date, `next` followed by `prev` is the
identity, and both `next` and `prev` produce valid dates (the functions
are pure, so the argument is never mutated); additionally the two
rollover examples of the claim. -/
theorem c8_next_prev_inverse :
    (∀ d : Greg.Date, d.IsValid →
      (d.next.prev = d ∧ d.next.IsValid ∧ d.prev.IsValid)) ∧
    Greg.Date.next ⟨⟨2020⟩, .January, 31⟩ = ⟨⟨2020⟩, .Februari, 1⟩ ∧
    Greg.Date.next ⟨⟨2020⟩, .December, 31⟩ = ⟨⟨2021⟩, .January, 1⟩ := by
  refine ⟨?_, by decide, by decide⟩
  intro d hd
  obtain ⟨⟨y⟩, m, day⟩ := d
  obtain ⟨hy1, hy2, hday1, hday2⟩ := hd
  dsimp [Greg.Date.year_month, Greg.YearMonth.new] at hy1 hy2 hday1 hday2
  obtain ⟨htd1, htd2⟩ := total_days_bounds ⟨⟨y⟩, m⟩
  have hymnp : (Greg.YearMonth.mk ⟨y⟩ m).next.prev = ⟨⟨y⟩, m⟩ :=
    ym_next_prev ⟨⟨y⟩, m⟩ hy1 hy2
  have hvalid_last : ∀ ym : Greg.YearMonth, -32768 ≤ ym.year.year →
      ym.year.year ≤ 32767 → ym.last_day.IsValid := by
    intro ym hb1 hb2
    obtain ⟨⟨y2⟩, m2⟩ := ym
    obtain ⟨hc1, hc2⟩ := total_days_bounds ⟨⟨y2⟩, m2⟩
    exact greg_valid_mk y2 m2 (Greg.YearMonth.total_days ⟨⟨y2⟩, m2⟩)
      hb1 hb2 (by omega) le_rfl
  by_cases hlast : day = Greg.YearMonth.total_days ⟨⟨y⟩, m⟩
  · -- last day of the month: next rolls into the next month
    have hnext : Greg.Date.next ⟨⟨y⟩, m, day⟩ = (Greg.YearMonth.mk ⟨y⟩ m).next.first_day := by
      show (if day = Greg.YearMonth.total_days ⟨⟨y⟩, m⟩ then _ else _) = _
      rw [if_pos hlast]
      rfl
    obtain ⟨hb1, hb2⟩ := next_year_bounds ⟨⟨y⟩, m⟩ hy1 hy2
    rw [hnext]
    obtain hnym : ∃ y2 m2, (Greg.YearMonth.mk ⟨y⟩ m).next = ⟨⟨y2⟩, m2⟩ := by
      obtain ⟨⟨y2⟩, m2⟩ := (Greg.YearMonth.mk ⟨y⟩ m).next
      exact ⟨y2, m2, rfl⟩
    obtain ⟨y2, m2, hnym⟩ := hnym
    rw [hnym] at hymnp hb1 hb2
    rw [hnym]
    dsimp at hb1 hb2
    refine ⟨?_, ?_, ?_⟩
    · -- next.prev = d
      show Greg.Date.prev ⟨⟨y2⟩, m2, 1⟩ = ⟨⟨y⟩, m, day⟩
      show (if (1 : Nat) = 1 then (Greg.Date.year_month ⟨⟨y2⟩, m2, 1⟩).prev.last_day
        else _) = _
      rw [if_pos rfl]
      show (Greg.YearMonth.mk ⟨y2⟩ m2).prev.last_day = _
      rw [hymnp]
      show Greg.Date.mk ⟨y⟩ m (Greg.YearMonth.total_days ⟨⟨y⟩, m⟩) = _
      rw [← hlast]
    · -- next is valid
      show Greg.Date.IsValid ⟨⟨y2⟩, m2, 1⟩
      obtain ⟨hc1, hc2⟩ := total_days_bounds ⟨⟨y2⟩, m2⟩
      exact greg_valid_mk y2 m2 1 hb1 hb2 le_rfl (by omega)
    · -- prev is valid: day = total_days is at least 28, hence not 1
      have hfirst : day ≠ 1 := by omega
      show Greg.Date.IsValid (Greg.Date.prev ⟨⟨y⟩, m, day⟩)
      have hprev : Greg.Date.prev ⟨⟨y⟩, m, day⟩ = ⟨⟨y⟩, m, (day + 255) % 256⟩ := by
        show (if day = 1 then _ else _) = _
        rw [if_neg hfirst]
      rw [hprev]
      have hmod : (day + 255) % 256 = day - 1 := by omega
      rw [hmod]
      exact greg_valid_mk y m (day - 1) hy1 hy2 (by omega) (by omega)
  · -- not the last day: next just increments the day
    have hnext : Greg.Date.next ⟨⟨y⟩, m, day⟩ = ⟨⟨y⟩, m, (day + 1) % 256⟩ := by
      show (if day = Greg.YearMonth.total_days ⟨⟨y⟩, m⟩ then _ else _) = _
      rw [if_neg hlast]
    have hmod : (day + 1) % 256 = day + 1 := by omega
    rw [hnext, hmod]
    refine ⟨?_, ?_, ?_⟩
    · have hne1 : day + 1 ≠ 1 := by omega
      have hprev : Greg.Date.prev ⟨⟨y⟩, m, day + 1⟩ = ⟨⟨y⟩, m, (day + 1 + 255) % 256⟩ := by
        show (if day + 1 = 1 then _ else _) = _
        rw [if_neg hne1]
      rw [hprev]
      have : (day + 1 + 255) % 256 = day := by omega
      rw [this]
    · exact greg_valid_mk y m (day + 1) hy1 hy2 (by omega) (by omega)
    · by_cases hfirst : day = 1
      · have hprev : Greg.Date.prev ⟨⟨y⟩, m, day⟩ =
            (Greg.YearMonth.mk ⟨y⟩ m).prev.last_day := by
          show (if day = 1 then _ else _) = _
          rw [if_pos hfirst]
          rfl
        rw [hprev]
        obtain ⟨hb1, hb2⟩ := prev_year_bounds ⟨⟨y⟩, m⟩ hy1 hy2
        exact hvalid_last _ hb1 hb2
      · have hprev : Greg.Date.prev ⟨⟨y⟩, m, day⟩ = ⟨⟨y⟩, m, (day + 255) % 256⟩ := by
          show (if day = 1 then _ else _) = _
          rw [if_neg hfirst]
        rw [hprev]
        have hmod2 : (day + 255) % 256 = day - 1 := by omega
        rw [hmod2]
        exact greg_valid_mk y m (day - 1) hy1 hy2 (by omega) (by omega)

/-! Lemmas about account parent chains (claim C9). -/

theorem beforeLastSlash_length (raw p : RStr) (h : beforeLastSlash raw = some p) :
    p.length < raw.length := by
  induction raw generalizing p with
  | nil => simp [beforeLastSlash] at h
  | cons c rest ih =>
    simp only [beforeLastSlash] at h
    cases hr : beforeLastSlash rest with
    | some q =>
      rw [hr] at h
      simp only [Option.some.injEq] at h
      subst h
      have := ih q hr
      simp
      omega
    | none =>
      rw [hr] at h
      by_cases hc : c = '/'
      · rw [if_pos hc] at h
        simp only [Option.some.injEq] at h
        subst h
        simp
      · rw [if_neg hc] at h
        exact Option.noConfusion h

theorem parent_length_lt (a p : Account) (h : a.parent = some p) :
    p.raw.length < a.raw.length := by
  unfold Account.parent at h
  rcases Option.map_eq_some'.mp h with ⟨q, hq, rfl⟩
  exact beforeLastSlash_length a.raw q hq

theorem parentChainAux_congr :
    ∀ (fuel : Nat) (a : Account), a.raw.length ≤ fuel →
      parentChainAux fuel a = Account.parentChain a := by
  intro fuel
  induction fuel using Nat.strong_induction_on with
  | _ fuel ih =>
    intro a hle
    cases fuel with
    | zero =>
      have hz : a.raw.length = 0 := by omega
      unfold Account.parentChain
      rw [hz]
    | succ fuel =>
      cases hp : a.parent with
      | none =>
        unfold Account.parentChain
        simp only [parentChainAux, hp]
        cases hlen : a.raw.length with
        | zero => simp [parentChainAux]
        | succ k => simp [parentChainAux, hp]
      | some p =>
        have hlt : p.raw.length < a.raw.length := parent_length_lt a p hp
        obtain ⟨k, hk⟩ : ∃ k, a.raw.length = k + 1 := ⟨a.raw.length - 1, by omega⟩
        unfold Account.parentChain
        rw [hk]
        simp only [parentChainAux, hp]
        rw [ih fuel (by omega) p (by omega), ih k (by omega) p (by omega)]

theorem parentChain_cons (a p : Account) (h : a.parent = some p) :
    a.parentChain = p :: p.parentChain := by
  have hlt : p.raw.length < a.raw.length := parent_length_lt a p h
  obtain ⟨k, hk⟩ : ∃ k, a.raw.length = k + 1 := ⟨a.raw.length - 1, by omega⟩
  unfold Account.parentChain
  rw [hk]
  simp only [parentChainAux, h]
  rw [parentChainAux_congr k p (by omega)]
  rfl

theorem parentChain_nil (a : Account) (h : a.parent = none) :
    a.parentChain = [] := by
  unfold Account.parentChain
  cases hlen : a.raw.length with
  | zero => simp [parentChainAux]
  | succ k => simp [parentChainAux, h]

theorem zip_self_map {α : Type} (l : List α) :
    l.zip l = l.map (fun x => (x, x)) := by
  induction l with
  | nil => rfl
  | cons x rest ih => simp [ih]

theorem takeWhile_dup {α : Type} [DecidableEq α] (l : List α) :
    (l.map (fun x => (x, x))).takeWhile (fun p => decide (p.1 = p.2)) =
      l.map (fun x => (x, x)) := by
  induction l with
  | nil => rfl
  | cons x rest ih => simp [List.takeWhile_cons, ih]

/-- C9 counterexample: `a/b/c/d` and `a/x` share the ancestor `a` (it is
in the parent chain of both), yet `common_parent` returns none; and for
the same-depth accounts `a/b/c` and `a/b/d`, whose deepest common
ancestor is `a/b`, `common_parent` returns the top-level `a` instead. -/
theorem c9_counterexample :
    Account.common_parent (Account.from_raw ("a/b/c/d".toList))
      (Account.from_raw ("a/x".toList)) = none ∧
    Account.from_raw ("a".toList) ∈
      (Account.from_raw ("a/b/c/d".toList)).parentChain ∧
    Account.from_raw ("a".toList) ∈
      (Account.from_raw ("a/x".toList)).parentChain ∧
    Account.common_parent (Account.from_raw ("a/b/c".toList))
      (Account.from_raw ("a/b/d".toList)) =
      some (Account.from_raw ("a".toList)) :=
  ⟨by decide, by decide, by decide, by decide⟩

/-- C9 (amended): `common_parent` returns the last element of the parent
chain of `a` (its top-level strict ancestor) exactly when `a` and `b`
have equal parents, and none otherwise; in particular it is none
whenever the two accounts have different parents, even when they share a
shallower ancestor. -/
theorem c9_common_parent_eq (a b : Account) :
    Account.common_parent a b =
      if a.parent = b.parent then a.parentChain.getLast? else none := by
  by_cases hab : a.parent = b.parent
  · rw [if_pos hab]
    cases hp : a.parent with
    | none =>
      unfold Account.common_parent
      rw [parentChain_nil a hp]
      simp
    | some p =>
      have hpb : b.parent = some p := hab ▸ hp
      have hca := parentChain_cons a p hp
      have hcb := parentChain_cons b p hpb
      unfold Account.common_parent
      rw [hca, hcb, zip_self_map, takeWhile_dup, List.getLast?_map, Option.map_map]
      have hcomp : (Prod.fst ∘ fun x : Account => (x, x)) = id := rfl
      rw [hcomp, Option.map_id]
      rfl

  · rw [if_neg hab]
    unfold Account.common_parent
    cases hp : a.parent with
    | none =>
      rw [parentChain_nil a hp]
      simp
    | some p =>
      cases hq : b.parent with
      | none =>
        rw [parentChain_nil b hq]
        simp
      | some q =>
        have hpq : p ≠ q := fun he => hab (by rw [hp, hq, he])
        rw [parentChain_cons a p hp, parentChain_cons b q hq]
        simp [List.takeWhile_cons, hpq]

theorem tdiv_100_neg_iff (n : Int) : Int.tdiv n 100 < 0 ↔ n ≤ -100 := by
  by_cases hn : 0 ≤ n
  · have := Int.tdiv_nonneg hn (by norm_num : (0 : Int) ≤ 100)
    constructor
    · intro h; omega
    · intro h; omega
  · have hneg : n = -(-n) := by omega
    rw [hneg, Int.neg_tdiv]
    rw [Int.tdiv_eq_ediv (by omega) (by norm_num : (0 : Int) ≤ 100)]
    omega

/-- C6 counterexample: `Cents(-50)` is negative but its `Display`
rendering is `"+0.50"`, with a `+` sign, because the truncated whole part
`-50 / 100` is zero; the claim that the sign matches the value fails. -/
theorem c6_counterexample :
    Cents.display ⟨-50⟩ = ('+' :: ("0.50".toList)) ∧ (-50 : Int) < 0 :=
  ⟨by decide, by decide⟩

/-- C6 (amended): the rendering of `Cents n` is a sign character, the
decimal digits of the absolute truncated quotient `|n / 100|`, a dot, and
two digits of `|n % 100|`; the sign is `+` exactly when `n > -100` (the
truncated whole part is non-negative), so values in `(-100, 0)` render
with a `+` despite being negative. -/
theorem c6_display_shape (n : Int) :
    Cents.display ⟨n⟩ =
      (if -100 < n then '+' else '-') ::
        (natDigits (Int.tdiv n 100).natAbs ++
          '.' :: padZeros 2 (natDigits (Int.tmod n 100).natAbs)) := by
  show (if Int.tdiv n 100 < 0 then '-' :: natDigits (Int.tdiv n 100).natAbs
      else '+' :: natDigits (Int.tdiv n 100).natAbs) ++
      '.' :: padZeros 2 (natDigits (Int.tmod n 100).natAbs) = _
  by_cases hn : -100 < n
  · rw [if_neg (by rw [tdiv_100_neg_iff]; omega), if_pos hn, List.cons_append]
  · rw [if_pos (by rw [tdiv_100_neg_iff]; omega), if_neg hn, List.cons_append]

theorem month_new_as_number (mo : Greg.Month) :
    Greg.Month.new mo.as_number = some mo := by
  cases mo <;> rfl

theorem month_as_number_bounds (mo : Greg.Month) :
    1 ≤ mo.as_number ∧ mo.as_number ≤ 12 := by
  cases mo <;> exact ⟨by decide, by decide⟩

theorem hyphen_not_mem_padded (k n : Nat) : '-' ∉ padZeros k (natDigits n) := by
  intro hmem
  exact absurd (mem_padZeros_isDigit _ _ (mem_natDigits_isDigit n) _ hmem) (by decide)

/-- C7 counterexample: `Date::new(-1, 1, 1)` succeeds, but its `Display`
rendering is `"-001-01-01"`, which `Date::from_str` fails to re-parse
because splitting on `-` makes the year field empty; the round trip of
the claim fails for this valid negative-year date. -/
theorem c7_counterexample :
    Greg.Date.new (-1) 1 1 = some ⟨⟨-1⟩, .January, 1⟩ ∧
    Greg.Date.display ⟨⟨-1⟩, .January, 1⟩ = ('-' :: ("001-01-01".toList)) ∧
    Greg.Date.from_str (Greg.Date.display ⟨⟨-1⟩, .January, 1⟩) = none := by
  refine ⟨by decide, by decide, by decide⟩

/-- C7 (amended): for every year `0 ≤ y ≤ 32767` (the non-negative
representable years) and every day valid for the month, `Date::new`
succeeds and the date round-trips through `Display` and `from_str`;
negative years print with a sign that `from_str` cannot re-parse, as the
counterexample shows. -/
theorem c7_roundtrip_nonneg (y : Int) (m d : Nat) (mo : Greg.Month)
    (hy0 : 0 ≤ y) (hy1 : y ≤ 32767)
    (hm : Greg.Month.new m = some mo)
    (hd1 : 1 ≤ d) (hd2 : d ≤ Greg.YearMonth.total_days ⟨⟨y⟩, mo⟩) :
    Greg.Date.new y m d = some ⟨⟨y⟩, mo, d⟩ ∧
    Greg.Date.from_str (Greg.Date.display ⟨⟨y⟩, mo, d⟩) = some ⟨⟨y⟩, mo, d⟩ := by
  obtain ⟨htd1, htd2⟩ := total_days_bounds ⟨⟨y⟩, mo⟩
  obtain ⟨hmb1, hmb2⟩ := month_as_number_bounds mo
  have hwith : Greg.YearMonth.with_day ⟨⟨y⟩, mo⟩ d = some ⟨⟨y⟩, mo, d⟩ := by
    unfold Greg.YearMonth.with_day
    rw [if_neg (by omega)]
  have hnew : ∀ mnum : Nat, Greg.Month.new mnum = some mo →
      Greg.Date.new y mnum d = some ⟨⟨y⟩, mo, d⟩ := by
    intro mnum hmn
    unfold Greg.Date.new
    rw [hmn]
    exact hwith
  refine ⟨hnew m hm, ?_⟩
  have hfmt : Greg.fmtYear4 y = padZeros 4 (natDigits y.natAbs) := by
    unfold Greg.fmtYear4
    rw [if_neg (by omega)]
  have hdisp : Greg.Date.display ⟨⟨y⟩, mo, d⟩ =
      (Greg.fmtYear4 y ++ ('-' :: padZeros 2 (natDigits mo.as_number))) ++
        ('-' :: padZeros 2 (natDigits d)) := rfl
  have hsplit : rustSplitn 3 '-' (Greg.Date.display ⟨⟨y⟩, mo, d⟩) =
      [padZeros 4 (natDigits y.natAbs),
       padZeros 2 (natDigits mo.as_number),
       padZeros 2 (natDigits d)] := by
    rw [hdisp, hfmt, List.append_assoc, List.cons_append]
    exact rustSplitn3_exact '-' _ _ _ (hyphen_not_mem_padded 4 y.natAbs)
      (hyphen_not_mem_padded 2 mo.as_number)
  unfold Greg.Date.from_str
  rw [hsplit]
  show (match parseI16 (padZeros 4 (natDigits y.natAbs)),
      parseU8 (padZeros 2 (natDigits mo.as_number)),
      parseU8 (padZeros 2 (natDigits d)) with
    | some y2, some m2, some d2 => Greg.Date.new y2 m2 d2
    | _, _, _ => none) = some ⟨⟨y⟩, mo, d⟩
  rw [parseI16_padded_natDigits y.natAbs 4 (by omega),
    parseU8_padded_natDigits mo.as_number 2 (by omega),
    parseU8_padded_natDigits d 2 (by omega)]
  show Greg.Date.new (y.natAbs : Int) mo.as_number d = some ⟨⟨y⟩, mo, d⟩
  rw [Int.natAbs_of_nonneg hy0]
  exact hnew mo.as_number (month_new_as_number mo)

/-- Witness for C7: the amended round trip applied to 2020-02-29. -/
theorem c7_roundtrip_nonneg_witness :
    (0 : Int) ≤ 2020 ∧ (2020 : Int) ≤ 32767 ∧
    Greg.Month.new 2 = some .Februari ∧
    1 ≤ 29 ∧ 29 ≤ Greg.YearMonth.total_days ⟨⟨2020⟩, .Februari⟩ ∧
    (Greg.Date.new 2020 2 29 = some ⟨⟨2020⟩, .Februari, 29⟩ ∧
      Greg.Date.from_str (Greg.Date.display ⟨⟨2020⟩, .Februari, 29⟩) =
        some ⟨⟨2020⟩, .Februari, 29⟩) :=
  ⟨by norm_num, by norm_num, by decide, by norm_num, by decide,
    c7_roundtrip_nonneg 2020 2 29 .Februari (by norm_num) (by norm_num)
      (by decide) (by norm_num) (by decide)⟩

/-! Lemmas for the amount grammar (claim C3). -/

theorem optionGuard_isSome (lo hi : Int) (o : Option Int) :
    (match o with
      | some v => if lo ≤ v ∧ v ≤ hi then some v else none
      | none => none).isSome = true ↔ ∃ v, o = some v ∧ lo ≤ v ∧ v ≤ hi := by
  cases o with
  | none => simp
  | some v =>
    by_cases hc : lo ≤ v ∧ v ≤ hi
    · simp [hc]
    · simp [hc]

theorem rustParseSigned_nil (lo hi : Int) :
    rustParseSigned lo hi ([] : RStr) = none := rfl

theorem rustParseSigned_cons (lo hi : Int) (c : Char) (rest : RStr) :
    rustParseSigned lo hi (c :: rest) =
      (match (if c = '+' then (parseDigits rest).map (Int.ofNat)
        else if c = '-' then (parseDigits rest).map (fun n : Nat => -(n : Int))
        else (parseDigits (c :: rest)).map (Int.ofNat)) with
      | some v => if lo ≤ v ∧ v ≤ hi then some v else none
      | none => none) := rfl

theorem signedLit_of_isSome (lo hi : Int) (s : RStr)
    (h : (rustParseSigned lo hi s).isSome) : SignedLit lo hi s := by
  cases s with
  | nil => rw [rustParseSigned_nil] at h; simp at h
  | cons c rest =>
    rw [rustParseSigned_cons] at h
    by_cases hplus : c = '+'
    · subst hplus
      rw [if_pos rfl] at h
      obtain ⟨v, hbody, hlo, hhi⟩ := (optionGuard_isSome lo hi _).mp h
      obtain ⟨n, hpd, hv⟩ := Option.map_eq_some'.mp hbody
      obtain ⟨hne, hdig, hval⟩ := (parseDigits_eq_some_iff rest n).mp hpd
      subst hv
      refine ⟨['+'], rest, Or.inr (Or.inl rfl), rfl, hne, hdig, ?_, ?_⟩
      · rw [if_neg (by simp), hval]; exact hlo
      · rw [if_neg (by simp), hval]; exact hhi
    · by_cases hminus : c = '-'
      · subst hminus
        rw [if_neg (by decide), if_pos rfl] at h
        obtain ⟨v, hbody, hlo, hhi⟩ := (optionGuard_isSome lo hi _).mp h
        obtain ⟨n, hpd, hv⟩ := Option.map_eq_some'.mp hbody
        obtain ⟨hne, hdig, hval⟩ := (parseDigits_eq_some_iff rest n).mp hpd
        subst hv
        refine ⟨['-'], rest, Or.inr (Or.inr rfl), rfl, hne, hdig, ?_, ?_⟩
        · rw [if_pos rfl, hval]; exact hlo
        · rw [if_pos rfl, hval]; exact hhi
      · rw [if_neg hplus, if_neg hminus] at h
        obtain ⟨v, hbody, hlo, hhi⟩ := (optionGuard_isSome lo hi _).mp h
        obtain ⟨n, hpd, hv⟩ := Option.map_eq_some'.mp hbody
        obtain ⟨hne, hdig, hval⟩ := (parseDigits_eq_some_iff _ n).mp hpd
        subst hv
        refine ⟨[], c :: rest, Or.inl rfl, rfl, hne, hdig, ?_, ?_⟩
        · rw [if_neg (by simp), hval]; exact hlo
        · rw [if_neg (by simp), hval]; exact hhi

theorem isSome_of_signedLit (lo hi : Int) (s : RStr)
    (h : SignedLit lo hi s) : (rustParseSigned lo hi s).isSome := by
  obtain ⟨sign, ds, hsign, heq, hne, hdig, hlo, hhi⟩ := h
  subst heq
  have hpd : parseDigits ds = some (digitsVal 0 ds) :=
    (parseDigits_eq_some_iff ds _).mpr ⟨hne, hdig, rfl⟩
  rcases hsign with rfl | rfl | rfl
  · rw [if_neg (by simp)] at hlo hhi
    rw [List.nil_append]
    cases ds with
    | nil => exact absurd rfl hne
    | cons c rest =>
      have hc : c.isDigit = true := hdig c (List.mem_cons_self c rest)
      rw [rustParseSigned_cons, if_neg (isDigit_ne c '+' hc (by decide)),
        if_neg (isDigit_ne c '-' hc (by decide)), hpd, Option.map_some']
      exact (optionGuard_isSome lo hi _).mpr ⟨_, rfl, hlo, hhi⟩
  · rw [if_neg (by simp)] at hlo hhi
    rw [List.singleton_append, rustParseSigned_cons, if_pos rfl, hpd, Option.map_some']
    exact (optionGuard_isSome lo hi _).mpr ⟨_, rfl, hlo, hhi⟩
  · rw [if_pos rfl] at hlo hhi
    rw [List.singleton_append, rustParseSigned_cons, if_neg (by decide), if_pos rfl,
      hpd, Option.map_some']
    exact (optionGuard_isSome lo hi _).mpr ⟨_, rfl, hlo, hhi⟩

theorem parseI32_isSome_iff (s : RStr) : (parseI32 s).isSome ↔ I32Lit s := by
  unfold parseI32 I32Lit
  exact ⟨signedLit_of_isSome _ _ s, isSome_of_signedLit _ _ s⟩

theorem cents_parse_no_dot (s : RStr) (h : splitOnce '.' s = none) :
    Cents.parse_from_str s =
      (match parseI32 s with
        | some w => some ⟨wrap32 (w * 100)⟩
        | none => none) := by
  unfold Cents.parse_from_str
  rw [h]

theorem cents_parse_dot (s w d2 : RStr) (h : splitOnce '.' s = some (w, d2)) :
    Cents.parse_from_str s =
      if d2.length ≠ 2 then none
      else match parseI32 w, parseI32 d2 with
        | some a, some b => some ⟨wrap32 (a * 100 + b)⟩
        | _, _ => none := by
  unfold Cents.parse_from_str
  rw [h]

/-- C3 counterexample: `Cents::parse_from_str` accepts a signed decimal
field because both fields go through `i32::from_str`: the amount text
`1.-1` (after the mutation sign) parses successfully to `Cents 99`
(`1 * 100 + (-1)`) and `1.+1` to `Cents 101`, where the claim requires
an `InvalidAmount` failure for any non-digit-string field. -/
theorem c3_counterexample :
    Cents.parse_from_str ("1.+1".toList) = some ⟨101⟩ ∧
    Cents.parse_from_str ("1.-1".toList) = some ⟨99⟩ ∧
    Mutation.parse_from_str ("+1.-1 a".toList) =
      .ok ⟨⟨99⟩, Account.from_raw ("a".toList)⟩ :=
  ⟨by decide, by decide, by decide⟩

/-- C3 (amended): the amount text after the leading sign parses as Money
exactly when it is `WHOLE` or `WHOLE.DD` where `DD` has exactly two
characters and each field parses under Rust `i32` parsing — an optional
single `+` or `-` sign, then one or more ASCII digits, with the value in
the `i32` range; on a sign-led amount token whose remainder fails this
grammar, mutation parsing fails with `InvalidAmount` keyed to the amount
token. -/
theorem c3_amount_grammar :
    (∀ s : RStr, (Cents.parse_from_str s).isSome ↔ C3Shape s) ∧
    (∀ (s amtRaw accRaw rest : RStr),
      splitOnce ' ' (rustTrim s) = some (amtRaw, accRaw) →
      rustTrim amtRaw = '+' :: rest →
      Cents.parse_from_str rest = none →
      Mutation.parse_from_str s = .err ⟨.InvalidAmount, '+' :: rest⟩) := by
  constructor
  · intro s
    cases hsp : splitOnce '.' s with
    | none =>
      have hnotin : '.' ∉ s := (splitOnce_eq_none_iff '.' s).mp hsp
      rw [cents_parse_no_dot s hsp]
      constructor
      · intro h
        cases hpi : parseI32 s with
        | none => rw [hpi] at h; simp at h
        | some w =>
          exact Or.inl ⟨hnotin, (parseI32_isSome_iff s).mp (by rw [hpi]; rfl)⟩
      · rintro (⟨-, hlit⟩ | ⟨w, d2, heq, -, -, -, -⟩)
        · obtain ⟨w, hw⟩ := Option.isSome_iff_exists.mp ((parseI32_isSome_iff s).mpr hlit)
          rw [hw]
          rfl
        · exact absurd (heq ▸ (by simp : '.' ∈ w ++ '.' :: d2)) hnotin
    | some p =>
      obtain ⟨w, d2⟩ := p
      obtain ⟨heq, hnotin⟩ := (splitOnce_eq_some_iff '.' s w d2).mp hsp
      have hin : '.' ∈ s := heq ▸ (by simp)
      rw [cents_parse_dot s w d2 hsp]
      by_cases hlen : d2.length = 2
      · rw [if_neg (by omega)]
        constructor
        · intro h
          cases hw : parseI32 w with
          | none => rw [hw] at h; simp at h
          | some a =>
            cases hd : parseI32 d2 with
            | none => rw [hw, hd] at h; simp at h
            | some b =>
              refine Or.inr ⟨w, d2, heq, hnotin, hlen,
                (parseI32_isSome_iff w).mp (by rw [hw]; rfl),
                (parseI32_isSome_iff d2).mp (by rw [hd]; rfl)⟩
        · rintro (⟨hno, -⟩ | ⟨w2, d22, heq2, hnotin2, hlen2, hw2, hd2⟩)
          · exact absurd hin hno
          · have huniq : splitOnce '.' s = some (w2, d22) :=
              (splitOnce_eq_some_iff '.' s w2 d22).mpr ⟨heq2, hnotin2⟩
            rw [hsp] at huniq
            simp only [Option.some.injEq, Prod.mk.injEq] at huniq
            obtain ⟨rfl, rfl⟩ := huniq
            obtain ⟨a, ha⟩ := Option.isSome_iff_exists.mp ((parseI32_isSome_iff w).mpr hw2)
            obtain ⟨b, hb⟩ := Option.isSome_iff_exists.mp ((parseI32_isSome_iff d2).mpr hd2)
            rw [ha, hb]
            rfl
      · rw [if_pos (by omega)]
        constructor
        · intro h; simp at h
        · rintro (⟨hno, -⟩ | ⟨w2, d22, heq2, hnotin2, hlen2, -, -⟩)
          · exact absurd hin hno
          · have huniq : splitOnce '.' s = some (w2, d22) :=
              (splitOnce_eq_some_iff '.' s w2 d22).mpr ⟨heq2, hnotin2⟩
            rw [hsp] at huniq
            simp only [Option.some.injEq, Prod.mk.injEq] at huniq
            obtain ⟨rfl, rfl⟩ := huniq
            exact absurd hlen2 hlen
  · intro s amtRaw accRaw rest h1 h2 h3
    unfold Mutation.parse_from_str
    simp only [h1, h2, h3]
    rfl

/-- Witness for C3: the `InvalidAmount` keying applied to the line
`"+1x bank"`, whose amount remainder `1x` fails the grammar. -/
theorem c3_amount_grammar_witness :
    splitOnce ' ' (rustTrim ("+1x bank".toList)) =
      some (("+1x".toList), ("bank".toList)) ∧
    rustTrim ("+1x".toList) = '+' :: ("1x".toList) ∧
    Cents.parse_from_str ("1x".toList) = none ∧
    Mutation.parse_from_str ("+1x bank".toList) =
      .err ⟨.InvalidAmount, '+' :: ("1x".toList)⟩ :=
  ⟨by decide, by decide, by decide,
    c3_amount_grammar.2 ("+1x bank".toList) ("+1x".toList) ("bank".toList)
      ("1x".toList) (by decide) (by decide) (by decide)⟩

/-- C5: evidence of the code bug.  A mutation line whose amount token
starts with a multi-byte UTF-8 character (here the euro sign, three
bytes) makes `Mutation::parse_from_str` slice `&amount[0..1]` off a
character boundary, which panics, instead of reporting `MissingSign`;
the whole-file parser propagates the panic.  A single-byte non-sign
first character does produce the intended `MissingSign` error with the
amount token. -/
theorem c5_multibyte_sign_panics :
    Mutation.parse_from_str ("€5.00 bank".toList) = .panic ∧
    Transaction.parse_from_str ("2020-01-02: x\n€5.00 bank".toList) = .panic ∧
    Mutation.parse_from_str ("5.00 assets/cash".toList) =
      .err ⟨.MissingSign, ("5.00".toList)⟩ :=
  ⟨by decide, by decide, by decide⟩

/-- C4 counterexample: a transaction body line containing a `:` whose
label has a character outside ASCII alphanumerics and `-` (here the
space in `foo bar`) is rejected with `InvalidLabel`; it is not parsed as
a mutation, contradicting the claim. -/
theorem c4_counterexample :
    Transaction.parse_from_str ("2020-01-02: x\nfoo bar: baz".toList) =
      .err ⟨.InvalidLabel, ("foo bar".toList)⟩ := by
  decide

/-- C4 (amended): within a transaction block, a non-blank non-comment
line with no `:` is parsed as a mutation; a line containing a `:` is
always handled as a tag candidate: with an invalid label it fails with
`InvalidLabel` keyed to the trimmed label when no mutation precedes it,
and with `TagAfterMutation` keyed to the line when one does — it is
never parsed as a mutation. -/
theorem c4_body_line_classification :
    (∀ (line : RStr) (rest : List RStr) (tags : List Tag) (muts : List Mutation),
      rustTrim line ≠ [] → (rustTrim line).head? ≠ some '#' →
      splitOnce ':' (rustTrim line) = none →
      parseBody tags muts (line :: rest) =
        (match Mutation.parse_from_str (rustTrim line) with
          | .panic => .panic
          | .err e => .err e
          | .ok m => parseBody tags (muts ++ [m]) rest)) ∧
    (∀ (line : RStr) (rest : List RStr) (tags : List Tag)
        (labelRaw valueRaw : RStr),
      rustTrim line ≠ [] → (rustTrim line).head? ≠ some '#' →
      splitOnce ':' (rustTrim line) = some (labelRaw, valueRaw) →
      (rustTrim labelRaw).any (fun c => ¬c.isAlphanum ∧ c ≠ '-') = true →
      parseBody tags [] (line :: rest) = .err ⟨.InvalidLabel, rustTrim labelRaw⟩) ∧
    (∀ (line : RStr) (rest : List RStr) (tags : List Tag) (muts : List Mutation)
        (labelRaw valueRaw : RStr),
      rustTrim line ≠ [] → (rustTrim line).head? ≠ some '#' →
      splitOnce ':' (rustTrim line) = some (labelRaw, valueRaw) →
      muts ≠ [] →
      parseBody tags muts (line :: rest) = .err ⟨.TagAfterMutation, rustTrim line⟩) := by
  refine ⟨?_, ?_, ?_⟩
  · intro line rest tags muts h1 h2 h3
    have htag : Tag.parse_from_str (rustTrim line) = none := by
      unfold Tag.parse_from_str
      simp only [rustTrim_idem, h3]
    simp only [parseBody, if_neg h1, if_neg h2, htag]
  · intro line rest tags labelRaw valueRaw h1 h2 h3 h4
    have htag : Tag.parse_from_str (rustTrim line) =
        some (.error ⟨.InvalidLabel, rustTrim labelRaw⟩) := by
      unfold Tag.parse_from_str
      simp only [rustTrim_idem, h3, h4, if_true]
    simp only [parseBody, if_neg h1, if_neg h2, htag]
    rfl
  · intro line rest tags muts labelRaw valueRaw h1 h2 h3 hne
    have htag : ∃ r, Tag.parse_from_str (rustTrim line) = some r := by
      unfold Tag.parse_from_str
      simp only [rustTrim_idem, h3]
      cases hlb : (rustTrim labelRaw).any (fun c => ¬c.isAlphanum ∧ c ≠ '-') with
      | true =>
        refine ⟨.error ⟨.InvalidLabel, rustTrim labelRaw⟩, ?_⟩
        simp [hlb]
      | false =>
        refine ⟨.ok ⟨rustTrim labelRaw, rustTrim valueRaw⟩, ?_⟩
        simp [hlb]
    obtain ⟨r, htag⟩ := htag
    simp only [parseBody, if_neg h1, if_neg h2, htag, if_neg hne]

/-- Witness for C4: the `InvalidLabel` conjunct applied to the line
`"foo bar: baz"` in an otherwise empty block. -/
theorem c4_body_line_classification_witness :
    rustTrim ("foo bar: baz".toList) ≠ [] ∧
    (rustTrim ("foo bar: baz".toList)).head? ≠ some '#' ∧
    splitOnce ':' (rustTrim ("foo bar: baz".toList)) =
      some (("foo bar".toList), (" baz".toList)) ∧
    (rustTrim ("foo bar".toList)).any (fun c => ¬c.isAlphanum ∧ c ≠ '-') = true ∧
    parseBody [] [] (("foo bar: baz".toList) :: []) =
      .err ⟨.InvalidLabel, rustTrim ("foo bar".toList)⟩ :=
  ⟨by decide, by decide, by decide, by decide,
    c4_body_line_classification.2.1 ("foo bar: baz".toList) [] []
      ("foo bar".toList) (" baz".toList) (by decide) (by decide) (by decide)
      (by decide)⟩

/-- Witness for C8: the general conjunct applied to 2020-12-31, a
year-rollover date. -/
theorem c8_next_prev_inverse_witness :
    Greg.Date.IsValid ⟨⟨2020⟩, .December, 31⟩ ∧
    ((Greg.Date.mk ⟨2020⟩ .December 31).next.prev = ⟨⟨2020⟩, .December, 31⟩ ∧
      (Greg.Date.mk ⟨2020⟩ .December 31).next.IsValid ∧
      (Greg.Date.mk ⟨2020⟩ .December 31).prev.IsValid) :=
  ⟨by decide, c8_next_prev_inverse.1 ⟨⟨2020⟩, .December, 31⟩ (by decide)⟩

end Zzp
